import Mathlib

/-!
Verification development for the Fish Speech tokenizer
(src/transformers/models/fish/tokenization_fish.py).

Python values are embedded as follows: a Python `str` is a `List Char`
(a sequence of Unicode code points), a Python `bytes` is a `List Nat`
with every element below 256, a Python `dict` is an association list in
insertion order whose keys are distinct (lookups take the most recent
binding, exactly as a Python dict built by repeated assignment), and a
Python function that can raise is an `Except PyErr` / `Option` value.

The tiktoken library and the regex engine are external collaborators of
the repository; their behaviour is modelled from the specification and
from the library's documented interface, as noted on each definition.
-/

namespace Fish

/-- Lookup in an association list with Python `dict` semantics: the most
recent assignment for a key wins.  (For the dictionaries built by the
tokenizer the keys are distinct, so this coincides with the first match;
the definition keeps the general semantics of `d[k] = v` updates.) -/
def pyDictGet [DecidableEq α] : List (α × β) → α → Option β
  | [], _ => none
  | p :: rest, k =>
    match pyDictGet rest k with
    | some v => some v
    | none => if p.1 = k then some p.2 else none

/-- Python `d[k] = v` on an insertion-ordered association list: an existing
binding is overwritten in place, a new key is appended at the end. -/
def pyDictAssign [DecidableEq α] (l : List (α × β)) (k : α) (v : β) : List (α × β) :=
  if (l.map Prod.fst).contains k then
    l.map (fun p => if p.1 = k then (k, v) else p)
  else
    l ++ [(k, v)]

theorem pyDictGet_mem [DecidableEq α] {l : List (α × β)} {k : α} {v : β}
    (h : pyDictGet l k = some v) : (k, v) ∈ l := by
  induction l with
  | nil => simp [pyDictGet] at h
  | cons p rest ih =>
    obtain ⟨a, b⟩ := p
    simp only [pyDictGet] at h
    cases hr : pyDictGet rest k with
    | some w =>
      rw [hr] at h
      cases h
      exact List.mem_cons_of_mem _ (ih hr)
    | none =>
      rw [hr] at h
      by_cases hk : a = k
      · subst hk
        simp only [if_pos rfl] at h
        cases h
        exact List.mem_cons_self _ _
      · simp [hk] at h

theorem pyDictGet_eq_none_iff [DecidableEq α] (l : List (α × β)) (k : α) :
    pyDictGet l k = none ↔ k ∉ l.map Prod.fst := by
  induction l with
  | nil => simp [pyDictGet]
  | cons p rest ih =>
    obtain ⟨a, b⟩ := p
    simp only [pyDictGet, List.map_cons, List.mem_cons]
    cases h : pyDictGet rest k with
    | some v =>
      have hkmem : k ∈ rest.map Prod.fst :=
        List.mem_map.mpr ⟨(k, v), pyDictGet_mem h, rfl⟩
      simp [hkmem]
    | none =>
      have hnot : k ∉ rest.map Prod.fst := (ih.mp h)
      by_cases hk : a = k
      · simp [hk, hnot]
      · simp [hk, hnot, Ne.symm hk]

theorem pyDictGet_of_nodup_mem [DecidableEq α] {l : List (α × β)} {k : α} {v : β}
    (hnd : (l.map Prod.fst).Nodup) (hmem : (k, v) ∈ l) : pyDictGet l k = some v := by
  induction l with
  | nil => simp at hmem
  | cons p rest ih =>
    simp only [List.map_cons, List.nodup_cons] at hnd
    rcases List.mem_cons.mp hmem with h | h
    · subst h
      have hrest : pyDictGet rest k = none := by
        rw [pyDictGet_eq_none_iff]
        exact hnd.1
      simp [pyDictGet, hrest]
    · have := ih hnd.2 h
      simp [pyDictGet, this]

theorem pyDictGet_isSome_iff [DecidableEq α] (l : List (α × β)) (k : α) :
    (pyDictGet l k).isSome ↔ k ∈ l.map Prod.fst := by
  cases h : pyDictGet l k with
  | none => simpa [h] using (pyDictGet_eq_none_iff l k).mp h
  | some v =>
    simp only [h, Option.isSome_some, true_iff]
    exact List.mem_map.mpr ⟨(k, v), pyDictGet_mem h, rfl⟩

/-- Errors raised by the tokenizer and its collaborators, abstracting the
concrete Python exception classes. -/
inductive PyErr where
  /-- tiktoken raises for a special-token substring listed in `disallowed_special`. -/
  | disallowedSpecialToken (tok : List Char)
  /-- a byte sequence with no entry in the merge table during BPE encoding. -/
  | unknownRank (piece : List Nat)
  /-- an allowed special token with no entry in the special-token table. -/
  | unknownSpecial (tok : List Char)
  /-- decoding met an id outside both the merge-table and special ranges. -/
  | unknownId (id : Nat)
  /-- a failed `assert` statement. -/
  | assertionError
  /-- a reference to an unbound name. -/
  | nameError
  /-- the expected model file is absent (`FileNotFoundError` from `open`). -/
  | modelNotFound
  /-- the model file does not parse as base64/rank lines. -/
  | malformedModelFile
  deriving DecidableEq

/-- Sequencing of a fallible function over a list, stopping at the first
raised exception — the effect of a Python `for` loop whose body may raise. -/
def mapME (f : α → Except PyErr β) : List α → Except PyErr (List β)
  | [] => .ok []
  | a :: l =>
    match f a with
    | .error e => .error e
    | .ok b =>
      match mapME f l with
      | .error e => .error e
      | .ok bs => .ok (b :: bs)

theorem mapME_nil (f : α → Except PyErr β) : mapME f [] = .ok [] := rfl

theorem mapME_cons (f : α → Except PyErr β) (a : α) (l : List α) :
    mapME f (a :: l) =
      match f a with
      | .error e => .error e
      | .ok b =>
        match mapME f l with
        | .error e => .error e
        | .ok bs => .ok (b :: bs) := rfl

theorem mapME_congr {f g : α → Except PyErr β} {l : List α}
    (h : ∀ a ∈ l, f a = g a) : mapME f l = mapME g l := by
  induction l with
  | nil => rfl
  | cons a l ih =>
    simp only [mapME]
    rw [h a (List.mem_cons_self a l), ih (fun x hx => h x (List.mem_cons_of_mem a hx))]

theorem mapME_append (f : α → Except PyErr β) (l₁ l₂ : List α) {b₁ b₂ : List β}
    (h₁ : mapME f l₁ = .ok b₁) (h₂ : mapME f l₂ = .ok b₂) :
    mapME f (l₁ ++ l₂) = .ok (b₁ ++ b₂) := by
  induction l₁ generalizing b₁ with
  | nil =>
    simp only [mapME] at h₁
    cases h₁
    simpa using h₂
  | cons a l ih =>
    rw [List.cons_append]
    simp only [mapME] at h₁ ⊢
    cases hfa : f a with
    | error e => rw [hfa] at h₁; cases h₁
    | ok b =>
      rw [hfa] at h₁
      cases hml : mapME f l with
      | error e => rw [hml] at h₁; cases h₁
      | ok bs =>
        rw [hml] at h₁
        cases h₁
        rw [ih hml]
        rfl

theorem mapME_error_mem {f : α → Except PyErr β} {l : List α} {e : PyErr}
    (h : mapME f l = .error e) : ∃ a ∈ l, f a = .error e := by
  induction l with
  | nil => simp [mapME] at h
  | cons a l ih =>
    simp only [mapME] at h
    cases hfa : f a with
    | error e₂ =>
      rw [hfa] at h
      cases h
      exact ⟨a, List.mem_cons_self a l, hfa⟩
    | ok b =>
      rw [hfa] at h
      cases hml : mapME f l with
      | error e₂ =>
        rw [hml] at h
        cases h
        obtain ⟨x, hx, hfx⟩ := ih hml
        exact ⟨x, List.mem_cons_of_mem a hx, hfx⟩
      | ok bs => rw [hml] at h; cases h

/-! ### Decimal rendering of natural numbers

Python renders the ranks and the indices inside token names (`f"{i}"`,
`f"{rank}"`) in canonical decimal.  `natDecimal` is that rendering; the
fuel argument of the auxiliary function encodes the digit loop, and
`natDecimalAux_fuel` shows the fuel is irrelevant once it exceeds the
number. -/

theorem char_toNat_ofNat {m : Nat} (h : m.isValidChar) : (Char.ofNat m).toNat = m := by
  simp only [Char.ofNat, h, dite_true, Char.ofNatAux, Char.toNat, UInt32.toNat]
  simp

def digitChar (d : Nat) : Char := Char.ofNat (48 + d)

theorem digitChar_toNat {d : Nat} (h : d < 10) : (digitChar d).toNat = 48 + d :=
  char_toNat_ofNat (Or.inl (by omega))

def natDecimalAux : Nat → Nat → List Char
  | 0, _ => []
  | fuel + 1, n =>
    if n < 10 then [digitChar n]
    else natDecimalAux fuel (n / 10) ++ [digitChar (n % 10)]

/-- Canonical decimal rendering of a natural number, as produced by a
Python f-string. -/
def natDecimal (n : Nat) : List Char := natDecimalAux (n + 1) n

theorem natDecimalAux_fuel : ∀ n f₁ f₂, n < f₁ → n < f₂ →
    natDecimalAux f₁ n = natDecimalAux f₂ n := by
  intro n
  induction n using Nat.strong_induction_on with
  | _ n ih =>
    intro f₁ f₂ h₁ h₂
    match f₁, f₂ with
    | g₁ + 1, g₂ + 1 =>
      by_cases h10 : n < 10
      · simp [natDecimalAux, h10]
      · have hdiv : n / 10 < n := Nat.div_lt_self (by omega) (by omega)
        simp only [natDecimalAux, h10, if_false]
        rw [ih (n / 10) hdiv g₁ g₂ (by omega) (by omega)]

theorem natDecimal_eq_aux {n f : Nat} (h : n < f) : natDecimalAux f n = natDecimal n :=
  natDecimalAux_fuel n f (n + 1) h (Nat.lt_succ_self n)

theorem natDecimal_small {n : Nat} (h : n < 10) : natDecimal n = [digitChar n] := by
  simp [natDecimal, natDecimalAux, h]

theorem natDecimal_step {n : Nat} (h : ¬ n < 10) :
    natDecimal n = natDecimal (n / 10) ++ [digitChar (n % 10)] := by
  have hdiv : n / 10 < n := Nat.div_lt_self (by omega) (by omega)
  rw [natDecimal]
  conv_lhs => rw [natDecimalAux]
  rw [if_neg h, natDecimal_eq_aux (by omega)]

/-- The numeric value of a digit string, the accumulator loop behind
`int(s)` for a string of pure decimal digits. -/
def decimalVal (ds : List Char) : Nat := ds.foldl (fun a c => a * 10 + (c.toNat - 48)) 0

theorem decimalVal_gen (n : Nat) :
    ∀ a : Nat, (natDecimal n).foldl (fun a c => a * 10 + (c.toNat - 48)) a =
      a * 10 ^ (natDecimal n).length + n := by
  induction n using Nat.strong_induction_on with
  | _ n ih =>
    intro a
    by_cases h10 : n < 10
    · rw [natDecimal_small h10]
      simp [List.foldl, digitChar_toNat h10]
    · have hdiv : n / 10 < n := Nat.div_lt_self (by omega) (by omega)
      rw [natDecimal_step h10]
      rw [List.foldl_append, ih (n / 10) hdiv a]
      simp only [List.foldl, List.length_append, List.length_singleton]
      rw [digitChar_toNat (Nat.mod_lt n (by omega))]
      have : 48 + n % 10 - 48 = n % 10 := by omega
      rw [this, pow_succ]
      have hmod := Nat.div_add_mod n 10
      ring_nf
      omega

theorem decimalVal_natDecimal (n : Nat) : decimalVal (natDecimal n) = n := by
  have := decimalVal_gen n 0
  simpa [decimalVal] using this

theorem natDecimal_injective : Function.Injective natDecimal := by
  intro m n h
  have : decimalVal (natDecimal m) = decimalVal (natDecimal n) := by rw [h]
  rwa [decimalVal_natDecimal, decimalVal_natDecimal] at this

theorem natDecimal_ne_nil (n : Nat) : natDecimal n ≠ [] := by
  by_cases h10 : n < 10
  · rw [natDecimal_small h10]; simp
  · rw [natDecimal_step h10]; simp

theorem natDecimal_digits {n : Nat} : ∀ c ∈ natDecimal n, 48 ≤ c.toNat ∧ c.toNat < 58 := by
  induction n using Nat.strong_induction_on with
  | _ n ih =>
    intro c hc
    by_cases h10 : n < 10
    · rw [natDecimal_small h10] at hc
      simp only [List.mem_singleton] at hc
      subst hc
      rw [digitChar_toNat h10]
      omega
    · have hdiv : n / 10 < n := Nat.div_lt_self (by omega) (by omega)
      rw [natDecimal_step h10] at hc
      rcases List.mem_append.mp hc with h | h
      · exact ih (n / 10) hdiv c h
      · simp only [List.mem_singleton] at h
        subst h
        rw [digitChar_toNat (Nat.mod_lt n (by omega))]
        omega

/-- `int(s)` on a string of decimal digits (the only shape the model file
parser meets; other accepted Python forms such as signs or underscores are
outside the canonical format). -/
def parsePyNat (ds : List Char) : Option Nat :=
  if ds ≠ [] ∧ ∀ c ∈ ds, 48 ≤ c.toNat ∧ c.toNat < 58 then some (decimalVal ds) else none

theorem parsePyNat_natDecimal (n : Nat) : parsePyNat (natDecimal n) = some n := by
  rw [parsePyNat, if_pos ⟨natDecimal_ne_nil n, natDecimal_digits⟩, decimalVal_natDecimal]

/-! ### UTF-8

BPE operates on `piece.encode("utf-8")`; decoding ends with
`bytes.decode("utf-8", errors="replace")`.  `charUtf8` is the UTF-8
encoding of one scalar value and `utf8DecodeReplace` a total decoder that
emits U+FFFD on malformed input (only the well-formed paths are exercised
by the theorems). -/

def charUtf8 (c : Char) : List Nat :=
  let n := c.toNat
  if n < 128 then [n]
  else if n < 2048 then [192 + n / 64, 128 + n % 64]
  else if n < 65536 then [224 + n / 4096, 128 + n / 64 % 64, 128 + n % 64]
  else [240 + n / 262144, 128 + n / 4096 % 64, 128 + n / 64 % 64, 128 + n % 64]

/-- Python `s.encode("utf-8")`. -/
def utf8Encode (s : List Char) : List Nat := s.flatMap charUtf8

def replacementChar : Char := Char.ofNat 65533

/-- One pass of the replacing UTF-8 decoder.  The fuel argument encodes the
byte loop; each step consumes at least one byte, so `bs.length` fuel is
always enough (`utf8DecodeAux_fuel`). -/
def utf8DecodeAux : Nat → List Nat → List Char
  | 0, bs => List.replicate bs.length replacementChar
  | _ + 1, [] => []
  | fuel + 1, b :: rest =>
    if b < 128 then Char.ofNat b :: utf8DecodeAux fuel rest
    else if b < 192 then replacementChar :: utf8DecodeAux fuel rest
    else if b < 224 then
      match rest with
      | b2 :: rest2 =>
        if 128 ≤ b2 ∧ b2 < 192 then
          Char.ofNat ((b - 192) * 64 + (b2 - 128)) :: utf8DecodeAux fuel rest2
        else replacementChar :: utf8DecodeAux fuel (b2 :: rest2)
      | [] => [replacementChar]
    else if b < 240 then
      match rest with
      | b2 :: b3 :: rest3 =>
        if 128 ≤ b2 ∧ b2 < 192 ∧ 128 ≤ b3 ∧ b3 < 192 then
          Char.ofNat ((b - 224) * 4096 + (b2 - 128) * 64 + (b3 - 128)) ::
            utf8DecodeAux fuel rest3
        else replacementChar :: utf8DecodeAux fuel (b2 :: b3 :: rest3)
      | [_] => [replacementChar, replacementChar]
      | [] => [replacementChar]
    else if b < 248 then
      match rest with
      | b2 :: b3 :: b4 :: rest4 =>
        if 128 ≤ b2 ∧ b2 < 192 ∧ 128 ≤ b3 ∧ b3 < 192 ∧ 128 ≤ b4 ∧ b4 < 192 then
          Char.ofNat ((b - 240) * 262144 + (b2 - 128) * 4096 + (b3 - 128) * 64 + (b4 - 128))
            :: utf8DecodeAux fuel rest4
        else replacementChar :: utf8DecodeAux fuel (b2 :: b3 :: b4 :: rest4)
      | bs => List.replicate (bs.length + 1) replacementChar
    else replacementChar :: utf8DecodeAux fuel rest

/-- Python `bs.decode("utf-8", errors="replace")`. -/
def utf8DecodeReplace (bs : List Nat) : List Char := utf8DecodeAux bs.length bs

theorem utf8DecodeAux_fuel : ∀ f₁ : Nat, ∀ bs : List Nat, ∀ f₂ : Nat,
    bs.length ≤ f₁ → bs.length ≤ f₂ → utf8DecodeAux f₁ bs = utf8DecodeAux f₂ bs := by
  intro f₁
  induction f₁ with
  | zero =>
    intro bs f₂ h₁ _
    have : bs = [] := List.eq_nil_of_length_eq_zero (Nat.le_zero.mp h₁)
    subst this
    match f₂ with
    | 0 => rfl
    | g + 1 => rfl
  | succ f ih =>
    intro bs f₂ h₁ h₂
    match bs, f₂ with
    | [], 0 => rfl
    | [], g + 1 => rfl
    | b :: rest, g + 1 =>
      simp only [List.length_cons, Nat.succ_le_succ_iff] at h₁ h₂
      simp only [utf8DecodeAux]
      by_cases hb1 : b < 128
      · simp only [if_pos hb1, ih rest g h₁ h₂]
      · simp only [if_neg hb1]
        by_cases hb2 : b < 192
        · simp only [if_pos hb2, ih rest g h₁ h₂]
        · simp only [if_neg hb2]
          by_cases hb3 : b < 224
          · simp only [if_pos hb3]
            match rest, h₁, h₂ with
            | [], _, _ => rfl
            | b2 :: rest2, h₁, h₂ =>
              simp only [List.length_cons] at h₁ h₂
              by_cases hc : 128 ≤ b2 ∧ b2 < 192
              · simp only [if_pos hc, ih rest2 g (by omega) (by omega)]
              · simp only [if_neg hc,
                  ih (b2 :: rest2) g (by simp; omega) (by simp; omega)]
          · simp only [if_neg hb3]
            by_cases hb4 : b < 240
            · simp only [if_pos hb4]
              match rest, h₁, h₂ with
              | [], _, _ => rfl
              | [b2], _, _ => rfl
              | b2 :: b3 :: rest3, h₁, h₂ =>
                simp only [List.length_cons] at h₁ h₂
                by_cases hc : 128 ≤ b2 ∧ b2 < 192 ∧ 128 ≤ b3 ∧ b3 < 192
                · simp only [if_pos hc, ih rest3 g (by omega) (by omega)]
                · simp only [if_neg hc,
                    ih (b2 :: b3 :: rest3) g (by simp; omega) (by simp; omega)]
            · simp only [if_neg hb4]
              by_cases hb5 : b < 248
              · simp only [if_pos hb5]
                match rest, h₁, h₂ with
                | [], _, _ => rfl
                | [b2], _, _ => rfl
                | [b2, b3], _, _ => rfl
                | b2 :: b3 :: b4 :: rest4, h₁, h₂ =>
                  simp only [List.length_cons] at h₁ h₂
                  by_cases hc : 128 ≤ b2 ∧ b2 < 192 ∧ 128 ≤ b3 ∧ b3 < 192 ∧
                      128 ≤ b4 ∧ b4 < 192
                  · simp only [if_pos hc, ih rest4 g (by omega) (by omega)]
                  · simp only [if_neg hc,
                      ih (b2 :: b3 :: b4 :: rest4) g (by simp; omega) (by simp; omega)]
              · simp only [if_neg hb5, ih rest g h₁ h₂]

theorem utf8DecodeAux_big (bs : List Nat) {f : Nat} (h : bs.length ≤ f) :
    utf8DecodeAux f bs = utf8DecodeReplace bs :=
  utf8DecodeAux_fuel f bs bs.length h (Nat.le_refl _)

theorem char_toNat_lt (c : Char) : c.toNat < 1114112 := by
  have h := c.valid
  rcases h with h | h
  · exact Nat.lt_trans h (by norm_num)
  · exact h.2

theorem utf8DecodeReplace_charUtf8 (c : Char) (rest : List Nat) :
    utf8DecodeReplace (charUtf8 c ++ rest) = c :: utf8DecodeReplace rest := by
  have hv : c.toNat < 1114112 := char_toNat_lt c
  by_cases h1 : c.toNat < 128
  · rw [show charUtf8 c = [c.toNat] by simp [charUtf8, h1]]
    rw [List.cons_append, List.nil_append, utf8DecodeReplace, List.length_cons]
    simp only [utf8DecodeAux, if_pos h1, Char.ofNat_toNat]
    rw [utf8DecodeAux_big rest (Nat.le_refl _)]
  · by_cases h2 : c.toNat < 2048
    · rw [show charUtf8 c = [192 + c.toNat / 64, 128 + c.toNat % 64] by
        simp [charUtf8, h1, h2]]
      rw [List.cons_append, List.cons_append, List.nil_append, utf8DecodeReplace,
        List.length_cons, List.length_cons]
      simp only [utf8DecodeAux]
      rw [if_neg (by omega), if_neg (by omega), if_pos (by omega),
        if_pos (by constructor <;> omega)]
      have harith : (192 + c.toNat / 64 - 192) * 64 + (128 + c.toNat % 64 - 128) = c.toNat := by
        omega
      rw [harith, Char.ofNat_toNat, utf8DecodeAux_big rest (by omega)]
    · by_cases h3 : c.toNat < 65536
      · rw [show charUtf8 c =
            [224 + c.toNat / 4096, 128 + c.toNat / 64 % 64, 128 + c.toNat % 64] by
          simp [charUtf8, h1, h2, h3]]
        rw [List.cons_append, List.cons_append, List.cons_append, List.nil_append,
          utf8DecodeReplace, List.length_cons, List.length_cons, List.length_cons]
        simp only [utf8DecodeAux]
        rw [if_neg (by omega), if_neg (by omega), if_neg (by omega), if_pos (by omega),
          if_pos (by refine ⟨by omega, by omega, by omega, by omega⟩)]
        have harith : (224 + c.toNat / 4096 - 224) * 4096 +
            (128 + c.toNat / 64 % 64 - 128) * 64 + (128 + c.toNat % 64 - 128) = c.toNat := by
          omega
        rw [harith, Char.ofNat_toNat, utf8DecodeAux_big rest (by omega)]
      · rw [show charUtf8 c = [240 + c.toNat / 262144, 128 + c.toNat / 4096 % 64,
            128 + c.toNat / 64 % 64, 128 + c.toNat % 64] by
          simp [charUtf8, h1, h2, h3]]
        rw [List.cons_append, List.cons_append, List.cons_append, List.cons_append,
          List.nil_append, utf8DecodeReplace, List.length_cons, List.length_cons,
          List.length_cons, List.length_cons]
        simp only [utf8DecodeAux]
        rw [if_neg (by omega), if_neg (by omega), if_neg (by omega), if_neg (by omega),
          if_pos (by omega),
          if_pos (by refine ⟨by omega, by omega, by omega, by omega, by omega, by omega⟩)]
        have harith : (240 + c.toNat / 262144 - 240) * 262144 +
            (128 + c.toNat / 4096 % 64 - 128) * 4096 +
            (128 + c.toNat / 64 % 64 - 128) * 64 + (128 + c.toNat % 64 - 128) = c.toNat := by
          omega
        rw [harith, Char.ofNat_toNat, utf8DecodeAux_big rest (by omega)]

theorem utf8_roundtrip (s : List Char) : utf8DecodeReplace (utf8Encode s) = s := by
  induction s with
  | nil => rfl
  | cons c cs ih =>
    rw [utf8Encode, List.flatMap_cons]
    rw [show cs.flatMap charUtf8 = utf8Encode cs from rfl]
    rw [utf8DecodeReplace_charUtf8, ih]

theorem charUtf8_lt_256 (c : Char) : ∀ b ∈ charUtf8 c, b < 256 := by
  have hv : c.toNat < 1114112 := char_toNat_lt c
  intro b hb
  by_cases h1 : c.toNat < 128
  · rw [show charUtf8 c = [c.toNat] by simp [charUtf8, h1]] at hb
    simp only [List.mem_singleton] at hb
    omega
  · by_cases h2 : c.toNat < 2048
    · rw [show charUtf8 c = [192 + c.toNat / 64, 128 + c.toNat % 64] by
        simp [charUtf8, h1, h2]] at hb
      simp only [List.mem_cons, List.not_mem_nil, or_false] at hb
      rcases hb with rfl | rfl <;> omega
    · by_cases h3 : c.toNat < 65536
      · rw [show charUtf8 c =
            [224 + c.toNat / 4096, 128 + c.toNat / 64 % 64, 128 + c.toNat % 64] by
          simp [charUtf8, h1, h2, h3]] at hb
        simp only [List.mem_cons, List.not_mem_nil, or_false] at hb
        rcases hb with rfl | rfl | rfl <;> omega
      · rw [show charUtf8 c = [240 + c.toNat / 262144, 128 + c.toNat / 4096 % 64,
            128 + c.toNat / 64 % 64, 128 + c.toNat % 64] by
          simp [charUtf8, h1, h2, h3]] at hb
        simp only [List.mem_cons, List.not_mem_nil, or_false] at hb
        rcases hb with rfl | rfl | rfl | rfl <;> omega

theorem utf8Encode_append (s₁ s₂ : List Char) :
    utf8Encode (s₁ ++ s₂) = utf8Encode s₁ ++ utf8Encode s₂ := by
  simp [utf8Encode, List.flatMap_append]

theorem utf8Encode_flatten (ls : List (List Char)) :
    utf8Encode ls.flatten = (ls.map utf8Encode).flatten := by
  induction ls with
  | nil => rfl
  | cons l ls ih =>
    rw [List.flatten_cons, utf8Encode_append, ih, List.map_cons, List.flatten_cons]

/-! ### Base64

The model file stores each merge-table key as `base64.b64encode(token)`;
loading uses `base64.b64decode`.  `b64decode` here covers the canonical
alphabet-only inputs the model file format uses (Python additionally
discards characters outside the alphabet before decoding). -/

def b64Char (v : Nat) : Char :=
  if v < 26 then Char.ofNat (65 + v)
  else if v < 52 then Char.ofNat (97 + (v - 26))
  else if v < 62 then Char.ofNat (48 + (v - 52))
  else if v = 62 then Char.ofNat 43
  else Char.ofNat 47

def b64CharVal (c : Char) : Option Nat :=
  let n := c.toNat
  if 65 ≤ n ∧ n ≤ 90 then some (n - 65)
  else if 97 ≤ n ∧ n ≤ 122 then some (n - 71)
  else if 48 ≤ n ∧ n ≤ 57 then some (n + 4)
  else if n = 43 then some 62
  else if n = 47 then some 63
  else none

/-- `base64.b64encode`, producing the canonical padded alphabet text. -/
def b64encode : List Nat → List Char
  | [] => []
  | [a] => [b64Char (a / 4), b64Char (a % 4 * 16), '=', '=']
  | [a, b] => [b64Char (a / 4), b64Char (a % 4 * 16 + b / 16), b64Char (b % 16 * 4), '=']
  | a :: b :: c :: rest =>
    b64Char (a / 4) :: b64Char (a % 4 * 16 + b / 16) :: b64Char (b % 16 * 4 + c / 64) ::
      b64Char (c % 64) :: b64encode rest

/-- `base64.b64decode` on alphabet-only input: four-character groups, with
padding allowed only in the final group. -/
def b64decode : List Char → Option (List Nat)
  | [] => some []
  | c1 :: c2 :: c3 :: c4 :: rest =>
    match b64CharVal c1, b64CharVal c2 with
    | some v1, some v2 =>
      if c3 = '=' then
        if c4 = '=' ∧ rest = [] then some [v1 * 4 + v2 / 16] else none
      else
        match b64CharVal c3 with
        | some v3 =>
          if c4 = '=' then
            if rest = [] then some [v1 * 4 + v2 / 16, v2 % 16 * 16 + v3 / 4] else none
          else
            match b64CharVal c4 with
            | some v4 =>
              match b64decode rest with
              | some bs =>
                some ([v1 * 4 + v2 / 16, v2 % 16 * 16 + v3 / 4, v3 % 4 * 64 + v4] ++ bs)
              | none => none
            | none => none
        | none => none
    | _, _ => none
  | _ => none

theorem b64Char_toNat {v : Nat} (h : v < 64) :
    (b64Char v).toNat = if v < 26 then 65 + v else if v < 52 then 71 + v
      else if v < 62 then v - 4 else if v = 62 then 43 else 47 := by
  by_cases h1 : v < 26
  · rw [b64Char, if_pos h1, char_toNat_ofNat (Or.inl (by omega)), if_pos h1]
  · by_cases h2 : v < 52
    · rw [b64Char, if_neg h1, if_pos h2, char_toNat_ofNat (Or.inl (by omega)),
        if_neg h1, if_pos h2]
      omega
    · by_cases h3 : v < 62
      · rw [b64Char, if_neg h1, if_neg h2, if_pos h3, char_toNat_ofNat (Or.inl (by omega)),
          if_neg h1, if_neg h2, if_pos h3]
        omega
      · by_cases h4 : v = 62
        · rw [b64Char, if_neg h1, if_neg h2, if_neg h3, if_pos h4,
            char_toNat_ofNat (Or.inl (by omega)), if_neg h1, if_neg h2, if_neg h3, if_pos h4]
        · rw [b64Char, if_neg h1, if_neg h2, if_neg h3, if_neg h4,
            char_toNat_ofNat (Or.inl (by omega)), if_neg h1, if_neg h2, if_neg h3, if_neg h4]

theorem b64CharVal_b64Char {v : Nat} (h : v < 64) : b64CharVal (b64Char v) = some v := by
  have ht := b64Char_toNat h
  by_cases h1 : v < 26
  · rw [if_pos h1] at ht
    simp only [b64CharVal, ht]
    rw [if_pos (show 65 ≤ 65 + v ∧ 65 + v ≤ 90 by omega)]
    simp only [Option.some.injEq]
    omega
  · by_cases h2 : v < 52
    · rw [if_neg h1, if_pos h2] at ht
      simp only [b64CharVal, ht]
      rw [if_neg (show ¬ (65 ≤ 71 + v ∧ 71 + v ≤ 90) by omega),
        if_pos (show 97 ≤ 71 + v ∧ 71 + v ≤ 122 by omega)]
      simp only [Option.some.injEq]
      omega
    · by_cases h3 : v < 62
      · rw [if_neg h1, if_neg h2, if_pos h3] at ht
        simp only [b64CharVal, ht]
        rw [if_neg (show ¬ (65 ≤ v - 4 ∧ v - 4 ≤ 90) by omega),
          if_neg (show ¬ (97 ≤ v - 4 ∧ v - 4 ≤ 122) by omega),
          if_pos (show 48 ≤ v - 4 ∧ v - 4 ≤ 57 by omega)]
        simp only [Option.some.injEq]
        omega
      · by_cases h4 : v = 62
        · rw [if_neg h1, if_neg h2, if_neg h3, if_pos h4] at ht
          simp only [b64CharVal, ht]
          rw [if_neg (show ¬ ((65 : Nat) ≤ 43 ∧ (43 : Nat) ≤ 90) by omega),
            if_neg (show ¬ ((97 : Nat) ≤ 43 ∧ (43 : Nat) ≤ 122) by omega),
            if_neg (show ¬ ((48 : Nat) ≤ 43 ∧ (43 : Nat) ≤ 57) by omega)]
          simp [h4]
        · rw [if_neg h1, if_neg h2, if_neg h3, if_neg h4] at ht
          simp only [b64CharVal, ht]
          rw [if_neg (show ¬ ((65 : Nat) ≤ 47 ∧ (47 : Nat) ≤ 90) by omega),
            if_neg (show ¬ ((97 : Nat) ≤ 47 ∧ (47 : Nat) ≤ 122) by omega),
            if_neg (show ¬ ((48 : Nat) ≤ 47 ∧ (47 : Nat) ≤ 57) by omega)]
          norm_num
          omega

theorem b64Char_toNat_gt {v : Nat} (h : v < 64) : 42 < (b64Char v).toNat := by
  have ht := b64Char_toNat h
  by_cases h1 : v < 26
  · rw [if_pos h1] at ht; omega
  · by_cases h2 : v < 52
    · rw [if_neg h1, if_pos h2] at ht; omega
    · by_cases h3 : v < 62
      · rw [if_neg h1, if_neg h2, if_pos h3] at ht; omega
      · by_cases h4 : v = 62
        · rw [if_neg h1, if_neg h2, if_neg h3, if_pos h4] at ht; omega
        · rw [if_neg h1, if_neg h2, if_neg h3, if_neg h4] at ht; omega

theorem b64Char_toNat_ne {v m : Nat} (h : v < 64) (hm : m = 61 ∨ m ≤ 42) :
    ¬ b64Char v = Char.ofNat m := by
  intro heq
  have hm' : m < 55296 := by rcases hm with hm | hm <;> omega
  have h61 : (b64Char v).toNat = m := by
    rw [heq]
    exact char_toNat_ofNat (Or.inl hm')
  have ht := b64Char_toNat h
  have hgt := b64Char_toNat_gt h
  rcases hm with rfl | hm <;>
  · by_cases h1 : v < 26
    · rw [if_pos h1] at ht; omega
    · by_cases h2 : v < 52
      · rw [if_neg h1, if_pos h2] at ht; omega
      · by_cases h3 : v < 62
        · rw [if_neg h1, if_neg h2, if_pos h3] at ht
          omega
        · by_cases h4 : v = 62
          · rw [if_neg h1, if_neg h2, if_neg h3, if_pos h4] at ht; omega
          · rw [if_neg h1, if_neg h2, if_neg h3, if_neg h4] at ht; omega

theorem b64Char_ne_pad {v : Nat} (h : v < 64) : ¬ b64Char v = '=' := by
  have : ('=' : Char) = Char.ofNat 61 := by decide
  rw [this]
  exact b64Char_toNat_ne h (Or.inl rfl)

theorem b64decode_b64encode {bs : List Nat} (h : ∀ b ∈ bs, b < 256) :
    b64decode (b64encode bs) = some bs := by
  induction bs using b64encode.induct with
  | case1 => rfl
  | case2 a =>
    have ha : a < 256 := h a (by simp)
    rw [b64encode, b64decode]
    rw [b64CharVal_b64Char (v := a / 4) (by omega),
      b64CharVal_b64Char (v := a % 4 * 16) (by omega)]
    simp only [and_self, if_true, ite_self, if_pos rfl, Option.some.injEq,
      List.cons.injEq, and_true]
    omega
  | case3 a b =>
    have ha : a < 256 := h a (by simp)
    have hb : b < 256 := h b (by simp)
    rw [b64encode, b64decode]
    rw [b64CharVal_b64Char (v := a / 4) (by omega),
      b64CharVal_b64Char (v := a % 4 * 16 + b / 16) (by omega)]
    dsimp only
    rw [if_neg (b64Char_ne_pad (v := b % 16 * 4) (by omega))]
    rw [b64CharVal_b64Char (v := b % 16 * 4) (by omega)]
    dsimp only
    simp only [if_true, Option.some.injEq, List.cons.injEq, and_true]
    omega
  | case4 a b c rest ih =>
    have ha : a < 256 := h a (by simp)
    have hb : b < 256 := h b (by simp)
    have hc : c < 256 := h c (by simp)
    have hrest : ∀ x ∈ rest, x < 256 := fun x hx => h x (by simp [hx])
    rw [b64encode, b64decode]
    rw [b64CharVal_b64Char (v := a / 4) (by omega),
      b64CharVal_b64Char (v := a % 4 * 16 + b / 16) (by omega)]
    dsimp only
    rw [if_neg (b64Char_ne_pad (v := b % 16 * 4 + c / 64) (by omega))]
    rw [b64CharVal_b64Char (v := b % 16 * 4 + c / 64) (by omega)]
    dsimp only
    rw [if_neg (b64Char_ne_pad (v := c % 64) (by omega))]
    rw [b64CharVal_b64Char (v := c % 64) (by omega)]
    dsimp only
    rw [ih hrest]
    simp only [Option.some.injEq, List.cons_append, List.nil_append, List.cons.injEq,
      and_true]
    omega

theorem b64encode_chars {bs : List Nat} (h : ∀ b ∈ bs, b < 256) :
    ∀ ch ∈ b64encode bs, 32 < ch.toNat := by
  induction bs using b64encode.induct with
  | case1 => intro ch hch; simp [b64encode] at hch
  | case2 a =>
    have ha : a < 256 := h a (by simp)
    intro ch hch
    rw [b64encode] at hch
    simp only [List.mem_cons, List.not_mem_nil, or_false] at hch
    rcases hch with rfl | rfl | rfl | rfl
    · have := b64Char_toNat_gt (v := a / 4) (by omega); omega
    · have := b64Char_toNat_gt (v := a % 4 * 16) (by omega); omega
    · rw [show ('=' : Char).toNat = 61 from by decide]; omega
    · rw [show ('=' : Char).toNat = 61 from by decide]; omega
  | case3 a b =>
    have ha : a < 256 := h a (by simp)
    have hb : b < 256 := h b (by simp)
    intro ch hch
    rw [b64encode] at hch
    simp only [List.mem_cons, List.not_mem_nil, or_false] at hch
    rcases hch with rfl | rfl | rfl | rfl
    · have := b64Char_toNat_gt (v := a / 4) (by omega); omega
    · have := b64Char_toNat_gt (v := a % 4 * 16 + b / 16) (by omega); omega
    · have := b64Char_toNat_gt (v := b % 16 * 4) (by omega); omega
    · rw [show ('=' : Char).toNat = 61 from by decide]; omega
  | case4 a b c rest ih =>
    have ha : a < 256 := h a (by simp)
    have hb : b < 256 := h b (by simp)
    have hc : c < 256 := h c (by simp)
    have hrest : ∀ x ∈ rest, x < 256 := fun x hx => h x (by simp [hx])
    intro ch hch
    rw [b64encode] at hch
    simp only [List.mem_cons] at hch
    rcases hch with rfl | rfl | rfl | rfl | hch
    · have := b64Char_toNat_gt (v := a / 4) (by omega); omega
    · have := b64Char_toNat_gt (v := a % 4 * 16 + b / 16) (by omega); omega
    · have := b64Char_toNat_gt (v := b % 16 * 4 + c / 64) (by omega); omega
    · have := b64Char_toNat_gt (v := c % 64) (by omega); omega
    · exact ih hrest ch hch

theorem b64encode_ne_nil {bs : List Nat} (h : bs ≠ []) : b64encode bs ≠ [] := by
  match bs with
  | [] => exact absurd rfl h
  | [a] => simp [b64encode]
  | [a, b] => simp [b64encode]
  | a :: b :: c :: rest => simp [b64encode]

/-! ### The special-token table (source lines 26-63)

A Python `str` is embedded as a `List Char`. -/

def BOS_TOKEN : List Char := "<|begin_of_text|>".toList
def EOS_TOKEN : List Char := "<|end_of_text|>".toList
def PAD_TOKEN : List Char := "<|pad|>".toList
def IM_START_TOKEN : List Char := "<|im_start|>".toList
def IM_END_TOKEN : List Char := "<|im_end|>".toList
def MODALITY_TEXT_TOKEN : List Char := "<|text|>".toList
def MODALITY_VOICE_TOKEN : List Char := "<|voice|>".toList
def MODALITY_INTERLEAVE_TOKEN : List Char := "<|interleave|>".toList

/-- `f"<|placeholder:{i}|>"`, the body of the loop filling `PLACEHOLDER_TOKEN`. -/
def placeholderToken (i : Nat) : List Char :=
  "<|placeholder:".toList ++ natDecimal i ++ "|>".toList

def PLACEHOLDER_TOKEN : List (List Char) := (List.range 4).map placeholderToken

/-- `SEMANTIC_TOKEN_TEMPLATE.format(i=i)`, for `i` in `range(1024)`. -/
def semanticToken (i : Nat) : List Char :=
  "<|semantic:".toList ++ natDecimal i ++ "|>".toList

def SEMANTIC_TOKENS : List (List Char) := (List.range 1024).map semanticToken

/-- Registration order is fixed; the source warns that new tokens may only
be appended at the end. -/
def ALL_SPECIAL_TOKENS : List (List Char) :=
  [BOS_TOKEN, EOS_TOKEN, PAD_TOKEN, IM_START_TOKEN, IM_END_TOKEN] ++
    PLACEHOLDER_TOKEN ++
    [ MODALITY_TEXT_TOKEN, MODALITY_VOICE_TOKEN, MODALITY_INTERLEAVE_TOKEN] ++
    SEMANTIC_TOKENS

/-- The non-semantic prefix of the registration list. -/
def headSpecialTokens : List (List Char) :=
  [BOS_TOKEN, EOS_TOKEN, PAD_TOKEN, IM_START_TOKEN, IM_END_TOKEN] ++
    PLACEHOLDER_TOKEN ++
    [ MODALITY_TEXT_TOKEN, MODALITY_VOICE_TOKEN, MODALITY_INTERLEAVE_TOKEN]

theorem all_special_eq_head_append :
    ALL_SPECIAL_TOKENS = headSpecialTokens ++ SEMANTIC_TOKENS := by
  simp [ALL_SPECIAL_TOKENS, headSpecialTokens]

/-- Literal `startswith` test on character lists. -/
def startsWith : List Char → List Char → Bool
  | [], _ => true
  | _ :: _, [] => false
  | p :: ps, c :: cs => p = c && startsWith ps cs

theorem startsWith_append (p rest : List Char) : startsWith p (p ++ rest) = true := by
  induction p with
  | nil => rfl
  | cons c cs ih => simp [startsWith, ih]

theorem ne_of_startsWith_false {p t : List Char} (h : startsWith p t = false) :
    ∀ rest, t ≠ p ++ rest := by
  intro rest heq
  rw [heq, startsWith_append] at h
  cases h

theorem semanticToken_injective : Function.Injective semanticToken := by
  intro i j h
  rw [semanticToken, semanticToken] at h
  have h₁ := List.append_cancel_right h
  exact natDecimal_injective (List.append_cancel_left h₁)

theorem semantic_tokens_nodup : SEMANTIC_TOKENS.Nodup :=
  List.Nodup.map semanticToken_injective (List.nodup_range 1024)

theorem mem_semantic_iff {t : List Char} :
    t ∈ SEMANTIC_TOKENS ↔ ∃ i, i < 1024 ∧ t = semanticToken i := by
  rw [SEMANTIC_TOKENS]
  constructor
  · intro h
    obtain ⟨i, hi, rfl⟩ := List.mem_map.mp h
    exact ⟨i, List.mem_range.mp hi, rfl⟩
  · rintro ⟨i, hi, rfl⟩
    exact List.mem_map.mpr ⟨i, List.mem_range.mpr hi, rfl⟩

theorem head_nodup : headSpecialTokens.Nodup := by decide

theorem head_not_semantic {t : List Char} (ht : t ∈ headSpecialTokens) :
    t ∉ SEMANTIC_TOKENS := by
  intro hsem
  obtain ⟨i, _, rfl⟩ := mem_semantic_iff.mp hsem
  have hsw : startsWith ("<|semantic:".toList) (semanticToken i) = true := by
    rw [semanticToken]
    exact startsWith_append _ _
  have hall : ∀ t ∈ headSpecialTokens, startsWith ("<|semantic:".toList) t = false := by
    decide
  have hfalse := hall _ ht
  rw [hsw] at hfalse
  cases hfalse

theorem all_special_tokens_nodup : ALL_SPECIAL_TOKENS.Nodup := by
  rw [all_special_eq_head_append, List.nodup_append]
  exact ⟨head_nodup, semantic_tokens_nodup, fun t ht => head_not_semantic ht⟩

theorem head_length : headSpecialTokens.length = 12 := by decide

theorem all_special_tokens_length : ALL_SPECIAL_TOKENS.length = 1036 := by
  rw [all_special_eq_head_append, List.length_append, head_length, SEMANTIC_TOKENS,
    List.length_map, List.length_range]

theorem all_special_get_semantic {i : Nat} (hi : i < 1024) :
    ALL_SPECIAL_TOKENS[12 + i]? = some (semanticToken i) := by
  rw [all_special_eq_head_append, List.getElem?_append_right (by rw [head_length]; omega)]
  rw [head_length]
  have h12 : 12 + i - 12 = i := by omega
  rw [h12, SEMANTIC_TOKENS, List.getElem?_map, List.getElem?_range hi]
  rfl

theorem startsWith_lt_shape {t : List Char} (h : startsWith ['<'] t = true) :
    ∃ rest, t = '<' :: rest := by
  match t with
  | [] => cases h
  | c :: cs =>
    simp only [startsWith, Bool.and_eq_true, decide_eq_true_eq] at h
    exact ⟨cs, by rw [h.1]⟩

theorem all_special_tokens_start {t : List Char} (ht : t ∈ ALL_SPECIAL_TOKENS) :
    startsWith ['<'] t = true := by
  rw [all_special_eq_head_append, List.mem_append] at ht
  rcases ht with ht | ht
  · have hall : ∀ t ∈ headSpecialTokens, startsWith ['<'] t = true := by decide
    exact hall _ ht
  · obtain ⟨i, _, rfl⟩ := mem_semantic_iff.mp ht
    rw [semanticToken]
    rw [show ("<|semantic:".toList) = '<' :: ("|semantic:".toList) from rfl]
    simp [startsWith]

theorem natDecimal_length_le_succ (n : Nat) : (natDecimal n).length ≤ n + 1 := by
  induction n using Nat.strong_induction_on with
  | _ n ih =>
    by_cases h10 : n < 10
    · rw [natDecimal_small h10]
      simp
    · have hdiv : n / 10 < n := Nat.div_lt_self (by omega) (by omega)
      rw [natDecimal_step h10, List.length_append]
      have := ih (n / 10) hdiv
      simp only [List.length_singleton]
      omega

theorem all_special_tokens_short {t : List Char} (ht : t ∈ ALL_SPECIAL_TOKENS) :
    0 < t.length ∧ t.length ≤ 2000 := by
  rw [all_special_eq_head_append, List.mem_append] at ht
  rcases ht with ht | ht
  · have hall : ∀ t ∈ headSpecialTokens, 0 < t.length ∧ t.length ≤ 2000 := by decide
    exact hall _ ht
  · obtain ⟨i, hi, rfl⟩ := mem_semantic_iff.mp ht
    rw [semanticToken]
    simp only [List.length_append]
    have := natDecimal_length_le_succ i
    have h1 : ("<|semantic:".toList).length = 11 := by decide
    have h2 : ("|>".toList).length = 2 := by decide
    rw [h1, h2]
    omega

/-! ### The tokenizer core

`FishTokenizer.__init__` loads the merge table and hands it, together
with the pattern string and the special-token table, to
`tiktoken.core.Encoding`.  The structure below carries the loaded merge
table and the compiled segmenter; everything else of the source class is
derived from them by the definitions that follow. -/

/-- `TIKTOKEN_MAX_ENCODE_CHARS` (source line 24). -/
def TIKTOKEN_MAX_ENCODE_CHARS : Nat := 400000

structure FishTokenizer where
  /-- the dict returned by `load_tiktoken_bpe`: byte sequence to rank. -/
  mergeableRanks : List (List Nat × Nat)
  /-- Modelled from the spec: the regex segmenter compiled from
  `FISH_TIKTOKEN_PATTERN` is an external collaborator (tiktoken and its
  regex engine); section 4.2 of the specification fixes only that the
  produced pieces cover the input exactly, which the theorems take as a
  hypothesis on this field. -/
  segment : List Char → List (List Char)
  /-- dict invariant: keys are distinct. -/
  nodupKeys : (mergeableRanks.map Prod.fst).Nodup

/-- `special_token_begin = len(mergeable_ranks)` (line 68). -/
def special_token_begin (t : FishTokenizer) : Nat := t.mergeableRanks.length

/-- `{token: special_token_begin + i for i, token in enumerate(ALL_SPECIAL_TOKENS)}`
(lines 69-71). -/
def all_special_tokens_with_ids (t : FishTokenizer) : List (List Char × Nat) :=
  ALL_SPECIAL_TOKENS.enum.map (fun p => (p.2, special_token_begin t + p.1))

/-- `FishTokenizer.get_token_id` (lines 95-96); `none` is the `KeyError`. -/
def get_token_id (t : FishTokenizer) (token : List Char) : Option Nat :=
  pyDictGet (all_special_tokens_with_ids t) token

/-- `self.semantic_begin_id = self.all_special_tokens_with_ids[SEMANTIC_TOKENS[0]]`
(line 76); the lookup always succeeds (`semantic_begin_id_eq`), so the
default never fires. -/
def semantic_begin_id (t : FishTokenizer) : Nat :=
  (get_token_id t (SEMANTIC_TOKENS.getD 0 [])).getD 0

/-- `self.semantic_end_id = self.all_special_tokens_with_ids[SEMANTIC_TOKENS[-1]]`
(line 77). -/
def semantic_end_id (t : FishTokenizer) : Nat :=
  (get_token_id t (SEMANTIC_TOKENS.getD 1023 [])).getD 0

/-- `{i: ... for i, token in enumerate(SEMANTIC_TOKENS)}` (lines 72-75). -/
def semantic_id_to_token_id (t : FishTokenizer) : List (Nat × Nat) :=
  SEMANTIC_TOKENS.enum.map (fun p => (p.1, (get_token_id t p.2).getD 0))

/-- `FishTokenizer.tokenize` (lines 98-102): the loop
`for i in range(0, len(text), TIKTOKEN_MAX_ENCODE_CHARS)` collects the
slices `text[i : i + TIKTOKEN_MAX_ENCODE_CHARS]`; equivalently, it takes
one slice and continues after it.  The fuel encodes the loop; each step
consumes `TIKTOKEN_MAX_ENCODE_CHARS ≥ 1` characters, so `text.length`
fuel always suffices (`tokenizeAux_fuel`). -/
def tokenizeAux : Nat → List Char → List (List Char)
  | _, [] => []
  | 0, text => [text]
  | fuel + 1, text =>
    text.take TIKTOKEN_MAX_ENCODE_CHARS ::
      tokenizeAux fuel (text.drop TIKTOKEN_MAX_ENCODE_CHARS)

def tokenize (text : List Char) : List (List Char) := tokenizeAux text.length text

/-- Modelled from the spec and tiktoken's documented interface: the search
of the compiled special-token alternation for the leftmost occurrence of
any listed token. -/
def findOccurrence (toks : List (List Char)) : List Char → Option (List Char)
  | [] => toks.find? (fun tok => startsWith tok [])
  | c :: rest =>
    match toks.find? (fun tok => startsWith tok (c :: rest)) with
    | some tok => some tok
    | none => findOccurrence toks rest

/-- Modelled from the spec and tiktoken's documented interface: split the
text at occurrences of allowed special tokens, leftmost occurrence first;
`Sum.inl` pieces are ordinary text, `Sum.inr` pieces are matched special
tokens.  The fuel encodes the scan loop; every step consumes at least one
character, so `text.length` fuel always suffices. -/
def splitSpecialsAux (allowed : List (List Char)) :
    Nat → List Char → List Char → List (List Char ⊕ List Char)
  | _, acc, [] => if acc = [] then [] else [Sum.inl acc.reverse]
  | 0, acc, text => if acc = [] ∧ text = [] then [] else [Sum.inl (acc.reverse ++ text)]
  | fuel + 1, acc, c :: rest =>
    match allowed.find? (fun tok => startsWith tok (c :: rest)) with
    | some tok =>
      (if acc = [] then [] else [Sum.inl acc.reverse]) ++
        (Sum.inr tok :: splitSpecialsAux allowed fuel [] (rest.drop (tok.length - 1)))
    | none => splitSpecialsAux allowed fuel (c :: acc) rest

def splitSpecials (allowed : List (List Char)) (text : List Char) :
    List (List Char ⊕ List Char) :=
  splitSpecialsAux allowed text.length [] text

/-- The scan for the lowest-ranked mergeable adjacent pair; returns its
index and rank, taking the leftmost pair on equal ranks (tiktoken merges
the first minimum). -/
def minMergeCandidate (ranks : List (List Nat × Nat)) :
    List (List Nat) → Option (Nat × Nat)
  | p1 :: p2 :: rest =>
    match pyDictGet ranks (p1 ++ p2), minMergeCandidate ranks (p2 :: rest) with
    | some r, some q => if r ≤ q.2 then some (0, r) else some (q.1 + 1, q.2)
    | some r, none => some (0, r)
    | none, some q => some (q.1 + 1, q.2)
    | none, none => none
  | _ => none

/-- Merge the pair at the given index into one part. -/
def mergeAt : Nat → List (List Nat) → List (List Nat)
  | 0, p1 :: p2 :: rest => (p1 ++ p2) :: rest
  | n + 1, p :: rest => p :: mergeAt n rest
  | _, l => l

/-- The merge loop: keep merging the lowest-ranked adjacent pair while one
exists.  Each merge shortens the part list, so `parts.length` fuel always
suffices. -/
def bpeMergeLoop (ranks : List (List Nat × Nat)) : Nat → List (List Nat) → List (List Nat)
  | 0, parts => parts
  | fuel + 1, parts =>
    match minMergeCandidate ranks parts with
    | none => parts
    | some q => bpeMergeLoop ranks fuel (mergeAt q.1 parts)

/-- tiktoken `byte_pair_encode`: start from single bytes, merge, emit the
rank of every remaining part (a part outside the table is the `KeyError`
case). -/
def byte_pair_encode (ranks : List (List Nat × Nat)) (piece : List Nat) :
    Except PyErr (List Nat) :=
  mapME
    (fun p =>
      match pyDictGet ranks p with
      | some r => .ok r
      | none => .error (.unknownRank p))
    (bpeMergeLoop ranks piece.length (piece.map (fun b => [b])))

/-- tiktoken encoding of one regex piece: a piece that is itself a key of
the merge table becomes its rank directly, otherwise BPE runs. -/
def encodePiece (ranks : List (List Nat × Nat)) (pieceBytes : List Nat) :
    Except PyErr (List Nat) :=
  match pyDictGet ranks pieceBytes with
  | some r => .ok [r]
  | none => byte_pair_encode ranks pieceBytes

/-- tiktoken `encode_ordinary`: run the segmenter over the text and encode
each piece from its UTF-8 bytes. -/
def encodeOrdinary (t : FishTokenizer) (s : List Char) : Except PyErr (List Nat) :=
  (mapME (fun part => encodePiece t.mergeableRanks (utf8Encode part)) (t.segment s)).map
    List.flatten

/-- Modelled from the spec (section 4.3) and tiktoken's documented
interface, `Encoding.encode(text, allowed_special, disallowed_special)`:
if some disallowed special token occurs in the text, raise
`DisallowedSpecialTokenError`; otherwise split at allowed special tokens
and encode ordinary stretches with the segmenter and BPE, each allowed
special token as its single id. -/
def tkEncode (t : FishTokenizer) (allowed disallowed : List (List Char))
    (text : List Char) : Except PyErr (List Nat) :=
  match findOccurrence disallowed text with
  | some tok => .error (.disallowedSpecialToken tok)
  | none =>
    (mapME
        (fun piece =>
          match piece with
          | Sum.inl ord => encodeOrdinary t ord
          | Sum.inr tok =>
            match pyDictGet (all_special_tokens_with_ids t) tok with
            | some id => .ok [id]
            | none => .error (.unknownSpecial tok))
        (splitSpecials allowed text)).map
      List.flatten

/-- The `allowed_special: bool | set[str]` parameter of the source. -/
inductive AllowedSpecial where
  | boolTrue
  | boolFalse
  | explicit (toks : List (List Char))

/-- `self.tkt_model.special_tokens_set`: the keys of the special-token
table handed to the tiktoken encoding. -/
def special_tokens_set (t : FishTokenizer) : List (List Char) :=
  (all_special_tokens_with_ids t).map Prod.fst

/-- Lines 105-108: `True` becomes the full special-token set, `False` the
empty set, a set argument stands as given. -/
def resolveAllowed (t : FishTokenizer) : AllowedSpecial → List (List Char)
  | .boolTrue => special_tokens_set t
  | .boolFalse => []
  | .explicit toks => toks

/-- `FishTokenizer.convert_tokens_to_ids` (lines 104-115).  Lines 105-108
resolve the boolean shorthand; the return statement then evaluates
`self.tkt_model.encode_batch(subs, allowed_special=..., disallowed_special=set())`
(lines 110-115) — but `subs` is a local variable of `tokenize`, undefined
in this method, so every call raises `NameError` at line 112, after the
resolution and before any encoding. -/
def convert_tokens_to_ids (t : FishTokenizer) (_tokens : List (List Char))
    (allowed_special : AllowedSpecial) : Except PyErr (List Nat) :=
  let _ := resolveAllowed t allowed_special
  .error .nameError

/-- The argument of `encode`, annotated `str | list`; `other` stands for
every Python value that is neither a `str` nor a `list`. -/
inductive EncodeArg where
  | ofStr (s : List Char)
  | ofList (l : List (List Char))
  | other

def EncodeArg.isStr : EncodeArg → Bool
  | .ofStr _ => true
  | _ => false

def EncodeArg.isList : EncodeArg → Bool
  | .ofList _ => true
  | _ => false

/-- `FishTokenizer.encode` (lines 117-126).  The final branch asserts
`isinstance(text, str) and isinstance(text, list)`; were that guard ever
true, the function would then return the unbound local `ids`
(`NameError`), and otherwise the assert raises `AssertionError`. -/
def encode (t : FishTokenizer) (text : EncodeArg)
    (allowed_special : AllowedSpecial) : Except PyErr (List Nat) :=
  match text with
  | .ofStr s => convert_tokens_to_ids t (tokenize s) allowed_special
  | .ofList l => convert_tokens_to_ids t l allowed_special
  | x => if x.isStr && x.isList then .error .nameError else .error .assertionError

/-- The tiktoken decode table: reverse merge-table lookup first, the
special-token ids as fallback, `KeyError` outside both. -/
def decodeId (t : FishTokenizer) (id : Nat) : Except PyErr (List Nat) :=
  match pyDictGet (t.mergeableRanks.map (fun p => (p.2, p.1))) id with
  | some bs => .ok bs
  | none =>
    match pyDictGet ((all_special_tokens_with_ids t).map (fun p => (p.2, utf8Encode p.1))) id with
    | some bs => .ok bs
    | none => .error (.unknownId id)

/-- `FishTokenizer.decode` (lines 128-129): the byte sequences of all ids
in order, decoded as UTF-8 with replacement. -/
def decode (t : FishTokenizer) (tokens : List Nat) : Except PyErr (List Char) :=
  (mapME (decodeId t) tokens).map (fun bss => utf8DecodeReplace bss.flatten)

/-! ### Persistence (source lines 86-93 and 131-152)

`load_tiktoken_bpe` (lines 86-93), `tokenize` (lines 98-102) and
`save_pretrained`'s write loops are embedded from their bodies.
`from_pretrained` (lines 147-152) references `os`, which the module never
imports, so it is embedded as the `NameError` every call raises. -/

/-- Python `str.split()` whitespace test. -/
def isPyWs (c : Char) : Bool :=
  c.toNat = 32 || c.toNat = 9 || c.toNat = 10 || c.toNat = 13 || c.toNat = 11 || c.toNat = 12

/-- Python `str.split()` with no argument: split on whitespace runs,
no empty fields. -/
def splitWsAux : List Char → List Char → List (List Char)
  | acc, [] => if acc = [] then [] else [acc.reverse]
  | acc, c :: rest =>
    if isPyWs c then (if acc = [] then [] else [acc.reverse]) ++ splitWsAux [] rest
    else splitWsAux (c :: acc) rest

def splitWs (s : List Char) : List (List Char) := splitWsAux [] s

/-- Python `str.splitlines()` for newline-terminated text (the model file
is written with `"\n"` line ends only). -/
def splitlinesAux : List Char → List Char → List (List Char)
  | acc, [] => if acc = [] then [] else [acc.reverse]
  | acc, c :: rest =>
    if c = '\n' then acc.reverse :: splitlinesAux [] rest
    else splitlinesAux (c :: acc) rest

def splitlines (s : List Char) : List (List Char) := splitlinesAux [] s

/-- Fallible map over `Option`, the loop body of `load_tiktoken_bpe`. -/
def mapMO (f : α → Option β) : List α → Option (List β)
  | [] => some []
  | a :: l =>
    match f a with
    | none => none
    | some b =>
      match mapMO f l with
      | none => none
      | some bs => some (b :: bs)

/-- One line of the model file: `token, rank = line.split()`,
`base64.b64decode(token)`, `int(rank)`; `none` abstracts the unpacking,
base64 and int exceptions. -/
def parseBpeLine (line : List Char) : Option (List Nat × Nat) :=
  match splitWs line with
  | [tokB64, rankStr] =>
    match b64decode tokB64, parsePyNat rankStr with
    | some bs, some r => some (bs, r)
    | _, _ => none
  | _ => none

/-- `FishTokenizer.load_tiktoken_bpe` (lines 86-93): parse every
non-blank line and assign `data[token_bytes] = rank` in order. -/
def load_tiktoken_bpe (content : List Char) : Option (List (List Nat × Nat)) :=
  match mapMO parseBpeLine (((splitlines content).filter (fun l => !l.isEmpty))) with
  | none => none
  | some entries => some (entries.foldl (fun d p => pyDictAssign d p.1 p.2) [])

/-- The text written to `tokenizer.tiktoken` by `save_pretrained`
(lines 135-137): a `b64encode(token) <space> rank` line per merge-table
entry, in dict iteration order. -/
def saveTiktokenText (ranks : List (List Nat × Nat)) : List Char :=
  (ranks.map (fun p => b64encode p.1 ++ [' '] ++ natDecimal p.2 ++ ['\n'])).flatten

def hexDigitChar (d : Nat) : Char :=
  if d < 10 then Char.ofNat (48 + d) else Char.ofNat (87 + d)

/-- The escaping of one character inside a JSON string as `json.dump` with
`ensure_ascii=False` performs it: quote, backslash and control characters
are escaped, everything else is written verbatim. -/
def jsonEscapeChar (c : Char) : List Char :=
  if c = '"' then ['\\', '"']
  else if c = '\\' then ['\\', '\\']
  else if c = '\n' then ['\\', 'n']
  else if c = '\t' then ['\\', 't']
  else if c = '\r' then ['\\', 'r']
  else if c.toNat = 8 then ['\\', 'b']
  else if c.toNat = 12 then ['\\', 'f']
  else if c.toNat < 32 then
    ['\\', 'u', '0', '0', hexDigitChar (c.toNat / 16), hexDigitChar (c.toNat % 16)]
  else [c]

/-- One `"key": value` line of the dumped object, indented two spaces. -/
def jsonEntryText (p : List Char × Nat) : List Char :=
  [' ', ' ', '"'] ++ p.1.flatMap jsonEscapeChar ++ ['"', ':', ' '] ++ natDecimal p.2

/-- The entry lines joined with `",\n"`. -/
def jsonEntriesText : List (List Char × Nat) → List Char
  | [] => []
  | [p] => jsonEntryText p
  | p :: rest => jsonEntryText p ++ ',' :: '\n' :: jsonEntriesText rest

/-- `json.dump(obj, f, indent=2, ensure_ascii=False)` for a dict of string
keys and integer values, entries in dict order. -/
def jsonDumpObj (entries : List (List Char × Nat)) : List Char :=
  match entries with
  | [] => [Char.ofNat 123, Char.ofNat 125]
  | _ => (Char.ofNat 123 :: '\n' :: jsonEntriesText entries) ++ ['\n', Char.ofNat 125]

/-- `FishTokenizer.save_pretrained` (lines 131-145): the contents written
to `tokenizer.tiktoken` and to `special_tokens.json`. -/
def save_pretrained (t : FishTokenizer) : List Char × List Char :=
  (saveTiktokenText t.mergeableRanks, jsonDumpObj (all_special_tokens_with_ids t))

/-- Scan a JSON string body up to the closing unescaped quote. -/
def scanKey : List Char → Option (List Char × List Char)
  | [] => none
  | c :: rest =>
    if c = '"' then some ([], rest)
    else
      match scanKey rest with
      | some q => some (c :: q.1, q.2)
      | none => none

/-- Scan a maximal run of decimal digits. -/
def scanDigits : List Char → List Char × List Char
  | [] => ([], [])
  | c :: rest =>
    if 48 ≤ c.toNat ∧ c.toNat < 58 then
      ((c :: (scanDigits rest).1), (scanDigits rest).2)
    else ([], c :: rest)

/-- Recursive-descent reader for the object layout `jsonDumpObj` emits:
two spaces, a quoted key, a colon and space, digits, then either a comma
and newline before the next entry or the closing newline and brace.  Used
to state that the saved JSON parses back to the table in order. -/
def jsonParseEntriesAux : Nat → List Char → Option (List (List Char × Nat))
  | 0, _ => none
  | fuel + 1, c1 :: c2 :: c3 :: rest =>
    if c1 = ' ' ∧ c2 = ' ' ∧ c3 = '"' then
      match scanKey rest with
      | some q =>
        match q.2 with
        | d1 :: d2 :: r2 =>
          if d1 = ':' ∧ d2 = ' ' then
            match scanDigits r2 with
            | (ds, r3) =>
              if ds = [] then none
              else
                match r3 with
                | e1 :: e2 :: r4 =>
                  if e1 = ',' ∧ e2 = '\n' then
                    match jsonParseEntriesAux fuel r4 with
                    | some es => some ((q.1, decimalVal ds) :: es)
                    | none => none
                  else if e1 = '\n' ∧ e2 :: r4 = [Char.ofNat 125] then
                    some [(q.1, decimalVal ds)]
                  else none
                | _ => none
          else none
        | _ => none
      | none => none
    else none
  | _, _ => none

def jsonParseObj (s : List Char) : Option (List (List Char × Nat)) :=
  if s = [Char.ofNat 123, Char.ofNat 125] then some []
  else
    match s with
    | c1 :: c2 :: rest =>
      if c1 = Char.ofNat 123 ∧ c2 = '\n' then jsonParseEntriesAux s.length rest else none
    | _ => none

/-- The file system visible to `from_pretrained`, a dict from path text
to content. -/
abbrev FileSys := List (List Char × List Char)

theorem contains_iff_mem [DecidableEq α] (l : List α) (k : α) :
    l.contains k = true ↔ k ∈ l := by
  rw [List.contains_iff_exists_mem_beq]
  constructor
  · rintro ⟨b, hb, hbeq⟩
    have : k = b := by simpa using hbeq
    rwa [this]
  · intro h
    exact ⟨k, h, by simp⟩

theorem pyDictAssign_keys_nodup [DecidableEq α] {l : List (α × β)}
    (h : (l.map Prod.fst).Nodup) (k : α) (v : β) :
    ((pyDictAssign l k v).map Prod.fst).Nodup := by
  rw [pyDictAssign]
  split
  · have hkeys : (l.map (fun q => if q.1 = k then (k, v) else q)).map Prod.fst =
        l.map Prod.fst := by
      rw [List.map_map]
      apply List.map_congr_left
      intro q _
      by_cases hq : q.1 = k
      · simp [hq]
      · simp [hq]
    rw [hkeys]
    exact h
  · next hc =>
      rw [List.map_append, List.nodup_append]
      refine ⟨h, by simp, ?_⟩
      intro a ha
      simp only [List.map_cons, List.map_nil, List.mem_singleton]
      intro hme
      subst hme
      exact hc ((contains_iff_mem _ _).mpr ha)

theorem pyDictAssign_not_mem [DecidableEq α] {l : List (α × β)} {k : α}
    (h : k ∉ l.map Prod.fst) (v : β) : pyDictAssign l k v = l ++ [(k, v)] := by
  rw [pyDictAssign, if_neg]
  intro hcon
  exact h ((contains_iff_mem _ _).mp hcon)

theorem load_tiktoken_bpe_nodup {content : List Char} {entries : List (List Nat × Nat)}
    (h : load_tiktoken_bpe content = some entries) : (entries.map Prod.fst).Nodup := by
  rw [load_tiktoken_bpe] at h
  cases hm : mapMO parseBpeLine ((splitlines content).filter (fun l => !l.isEmpty)) with
  | none => rw [hm] at h; cases h
  | some raw =>
    rw [hm] at h
    cases h
    clear hm
    suffices hgen : ∀ (raw : List (List Nat × Nat)) (d : List (List Nat × Nat)),
        (d.map Prod.fst).Nodup →
        ((raw.foldl (fun d p => pyDictAssign d p.1 p.2) d).map Prod.fst).Nodup by
      exact hgen raw [] (by simp)
    intro raw
    induction raw with
    | nil => intro d hd; simpa using hd
    | cons p rest ih =>
      intro d hd
      rw [List.foldl_cons]
      exact ih _ (pyDictAssign_keys_nodup hd p.1 p.2)

/-- `FishTokenizer.from_pretrained` (lines 147-152).  Line 149 evaluates
`os.path.isfile(path)`, but the module never imports `os`, so every call
raises `NameError` before any file access; neither return statement is
reachable.  (Were the condition reachable, construction would still fail:
`__init__`, line 67, calls `self.load_tiktoken_bpe(model_path)`, and
`load_tiktoken_bpe`, line 86, has no `self` parameter, so the bound call
passes two arguments to a one-parameter function — `TypeError`.) -/
def from_pretrained (_seg : List Char → List (List Char)) (_fs : FileSys)
    (_p : List Char) : Except PyErr FishTokenizer :=
  .error .nameError

/-! ### Chunking lemmas -/

theorem tokenizeAux_fuel : ∀ f₁ : Nat, ∀ text : List Char, ∀ f₂ : Nat,
    text.length ≤ f₁ → text.length ≤ f₂ → tokenizeAux f₁ text = tokenizeAux f₂ text := by
  intro f₁
  induction f₁ with
  | zero =>
    intro text f₂ h₁ _
    have : text = [] := List.eq_nil_of_length_eq_zero (Nat.le_zero.mp h₁)
    subst this
    match f₂ with
    | 0 => rfl
    | g + 1 => rfl
  | succ f ih =>
    intro text f₂ h₁ h₂
    match text, f₂ with
    | [], 0 => rfl
    | [], g + 1 => rfl
    | c :: rest, g + 1 =>
      simp only [tokenizeAux]
      have hlen : rest.length + 1 ≤ f + 1 := by
        simpa using h₁
      have hlen2 : rest.length + 1 ≤ g + 1 := by
        simpa using h₂
      have hdrop : ((c :: rest).drop TIKTOKEN_MAX_ENCODE_CHARS).length ≤ f := by
        simp only [List.length_drop, List.length_cons, TIKTOKEN_MAX_ENCODE_CHARS]
        omega
      have hdrop2 : ((c :: rest).drop TIKTOKEN_MAX_ENCODE_CHARS).length ≤ g := by
        simp only [List.length_drop, List.length_cons, TIKTOKEN_MAX_ENCODE_CHARS]
        omega
      rw [ih _ g hdrop hdrop2]

theorem tokenize_nil : tokenize [] = [] := rfl

theorem tokenize_cons {text : List Char} (h : text ≠ []) :
    tokenize text = text.take TIKTOKEN_MAX_ENCODE_CHARS ::
      tokenize (text.drop TIKTOKEN_MAX_ENCODE_CHARS) := by
  obtain ⟨c, rest, rfl⟩ : ∃ c rest, text = c :: rest := by
    cases text with
    | nil => exact absurd rfl h
    | cons c rest => exact ⟨c, rest, rfl⟩
  have hstep : tokenizeAux (rest.length + 1) (c :: rest) =
      (c :: rest).take TIKTOKEN_MAX_ENCODE_CHARS ::
        tokenizeAux rest.length ((c :: rest).drop TIKTOKEN_MAX_ENCODE_CHARS) := rfl
  rw [tokenize, List.length_cons, hstep, tokenize]
  congr 1
  apply tokenizeAux_fuel
  · simp only [List.length_drop, List.length_cons, TIKTOKEN_MAX_ENCODE_CHARS]
    omega
  · exact Nat.le_refl _

theorem tokenize_flatten (text : List Char) : (tokenize text).flatten = text := by
  have hgen : ∀ n (text : List Char), text.length = n → (tokenize text).flatten = text := by
    intro n
    induction n using Nat.strong_induction_on with
    | _ n ih =>
      intro text hlen
      by_cases h : text = []
      · subst h
        rw [tokenize_nil]
        rfl
      · rw [tokenize_cons h, List.flatten_cons]
        have hL : 0 < text.length := List.length_pos.mpr h
        have hdrop : (text.drop TIKTOKEN_MAX_ENCODE_CHARS).length < n := by
          rw [List.length_drop, TIKTOKEN_MAX_ENCODE_CHARS]
          omega
        rw [ih _ hdrop _ rfl, List.take_append_drop]
  exact hgen _ text rfl

theorem tokenize_length (text : List Char) :
    (tokenize text).length =
      (text.length + TIKTOKEN_MAX_ENCODE_CHARS - 1) / TIKTOKEN_MAX_ENCODE_CHARS := by
  have hgen : ∀ n (text : List Char), text.length = n → (tokenize text).length =
      (text.length + TIKTOKEN_MAX_ENCODE_CHARS - 1) / TIKTOKEN_MAX_ENCODE_CHARS := by
    intro n
    induction n using Nat.strong_induction_on with
    | _ n ih =>
      intro text hlen
      by_cases h : text = []
      · subst h
        rw [tokenize_nil]
        simp [TIKTOKEN_MAX_ENCODE_CHARS]
      · rw [tokenize_cons h, List.length_cons]
        have hL : 0 < text.length := List.length_pos.mpr h
        have hdrop : (text.drop TIKTOKEN_MAX_ENCODE_CHARS).length < n := by
          rw [List.length_drop, TIKTOKEN_MAX_ENCODE_CHARS]
          omega
        rw [ih _ hdrop _ rfl, List.length_drop]
        simp only [TIKTOKEN_MAX_ENCODE_CHARS]
        omega
  exact hgen _ text rfl

theorem tokenize_chunk_le (text : List Char) :
    ∀ c ∈ tokenize text, c.length ≤ TIKTOKEN_MAX_ENCODE_CHARS := by
  have hgen : ∀ n (text : List Char), text.length = n →
      ∀ c ∈ tokenize text, c.length ≤ TIKTOKEN_MAX_ENCODE_CHARS := by
    intro n
    induction n using Nat.strong_induction_on with
    | _ n ih =>
      intro text hlen c hc
      by_cases h : text = []
      · subst h
        rw [tokenize_nil] at hc
        cases hc
      · rw [tokenize_cons h] at hc
        have hL : 0 < text.length := List.length_pos.mpr h
        have hdrop : (text.drop TIKTOKEN_MAX_ENCODE_CHARS).length < n := by
          rw [List.length_drop, TIKTOKEN_MAX_ENCODE_CHARS]
          omega
        rcases List.mem_cons.mp hc with rfl | hc
        · rw [List.length_take]
          exact Nat.min_le_left _ _
        · exact ih _ hdrop _ rfl c hc
  exact hgen _ text rfl

theorem tokenize_chunk_ne_nil {text : List Char} : ∀ c ∈ tokenize text, c ≠ [] := by
  have hgen : ∀ n (text : List Char), text.length = n → ∀ c ∈ tokenize text, c ≠ [] := by
    intro n
    induction n using Nat.strong_induction_on with
    | _ n ih =>
      intro text hlen c hc
      by_cases h : text = []
      · subst h
        rw [tokenize_nil] at hc
        cases hc
      · rw [tokenize_cons h] at hc
        have hL : 0 < text.length := List.length_pos.mpr h
        have hdrop : (text.drop TIKTOKEN_MAX_ENCODE_CHARS).length < n := by
          rw [List.length_drop, TIKTOKEN_MAX_ENCODE_CHARS]
          omega
        rcases List.mem_cons.mp hc with rfl | hc
        · intro hnil
          have hlen2 := congrArg List.length hnil
          rw [List.length_take, List.length_nil, Nat.min_eq_zero_iff,
            TIKTOKEN_MAX_ENCODE_CHARS] at hlen2
          rcases hlen2 with h2 | h2 <;> omega
        · exact ih _ hdrop _ rfl c hc
  exact hgen _ text rfl

theorem tokenize_chunk_full (text : List Char) :
    ∀ i, i + 1 < (tokenize text).length →
      ((tokenize text).getD i []).length = TIKTOKEN_MAX_ENCODE_CHARS := by
  have hgen : ∀ n (text : List Char), text.length = n → ∀ i,
      i + 1 < (tokenize text).length →
      ((tokenize text).getD i []).length = TIKTOKEN_MAX_ENCODE_CHARS := by
    intro n
    induction n using Nat.strong_induction_on with
    | _ n ih =>
      intro text hlen i hi
      by_cases h : text = []
      · rw [h, tokenize_nil] at hi
        simp at hi
      · have hL : 0 < text.length := List.length_pos.mpr h
        have hdrop : (text.drop TIKTOKEN_MAX_ENCODE_CHARS).length < n := by
          rw [List.length_drop, TIKTOKEN_MAX_ENCODE_CHARS]
          omega
        rw [tokenize_cons h] at hi ⊢
        match i with
        | 0 =>
          rw [List.length_cons] at hi
          have hrest : tokenize (text.drop TIKTOKEN_MAX_ENCODE_CHARS) ≠ [] := by
            intro hnil
            rw [hnil] at hi
            simp at hi
          have hdropne : text.drop TIKTOKEN_MAX_ENCODE_CHARS ≠ [] := by
            intro hnil
            rw [hnil, tokenize_nil] at hrest
            exact hrest rfl
          have hlong : TIKTOKEN_MAX_ENCODE_CHARS < text.length := by
            by_contra hle
            push_neg at hle
            exact hdropne (List.drop_eq_nil_of_le hle)
          rw [List.getD_cons_zero, List.length_take]
          omega
        | j + 1 =>
          rw [List.getD_cons_succ]
          rw [List.length_cons] at hi
          exact ih _ hdrop _ rfl j (by omega)
  exact hgen _ text rfl

theorem tokenize_single {text : List Char} (h1 : text ≠ [])
    (h2 : text.length ≤ TIKTOKEN_MAX_ENCODE_CHARS) : tokenize text = [text] := by
  rw [tokenize_cons h1, List.drop_eq_nil_of_le h2, tokenize_nil,
    List.take_of_length_le h2]

/-! ### Special-token table lemmas -/

theorem all_special_tokens_with_ids_keys (t : FishTokenizer) :
    (all_special_tokens_with_ids t).map Prod.fst = ALL_SPECIAL_TOKENS := by
  rw [all_special_tokens_with_ids, List.map_map]
  have hcomp : (Prod.fst ∘ fun p : Nat × List Char => (p.2, special_token_begin t + p.1)) =
      Prod.snd := rfl
  rw [hcomp, List.enum_map_snd]

theorem special_tokens_set_eq (t : FishTokenizer) :
    special_tokens_set t = ALL_SPECIAL_TOKENS :=
  all_special_tokens_with_ids_keys t

theorem get_token_id_eq (t : FishTokenizer) {i : Nat} {tok : List Char}
    (hget : ALL_SPECIAL_TOKENS[i]? = some tok) :
    get_token_id t tok = some (special_token_begin t + i) := by
  rw [get_token_id]
  apply pyDictGet_of_nodup_mem
  · rw [all_special_tokens_with_ids_keys]
    exact all_special_tokens_nodup
  · rw [all_special_tokens_with_ids]
    apply List.mem_map.mpr
    refine ⟨(i, tok), ?_, rfl⟩
    rw [List.mem_enum_iff_getElem?]
    exact hget

theorem get_token_id_none (t : FishTokenizer) {tok : List Char}
    (h : tok ∉ ALL_SPECIAL_TOKENS) : get_token_id t tok = none := by
  rw [get_token_id, pyDictGet_eq_none_iff, all_special_tokens_with_ids_keys]
  exact h

theorem get_token_id_semantic (t : FishTokenizer) {i : Nat} (hi : i < 1024) :
    get_token_id t (semanticToken i) = some (special_token_begin t + (12 + i)) :=
  get_token_id_eq t (all_special_get_semantic hi)

theorem semantic_tokens_getD {i : Nat} (hi : i < 1024) :
    SEMANTIC_TOKENS.getD i [] = semanticToken i := by
  rw [SEMANTIC_TOKENS, List.getD_eq_getElem?_getD, List.getElem?_map, List.getElem?_range hi]
  rfl

theorem semantic_begin_id_eq (t : FishTokenizer) :
    semantic_begin_id t = special_token_begin t + 12 := by
  rw [semantic_begin_id, semantic_tokens_getD (by norm_num),
    get_token_id_semantic t (by norm_num)]
  simp only [Option.getD_some]

theorem semantic_end_id_eq (t : FishTokenizer) :
    semantic_end_id t = special_token_begin t + 1035 := by
  rw [semantic_end_id, semantic_tokens_getD (by norm_num),
    get_token_id_semantic t (by norm_num)]
  simp only [Option.getD_some]

theorem get_token_id_at_index (t : FishTokenizer) {i : Nat}
    (hi : i < ALL_SPECIAL_TOKENS.length) :
    get_token_id t (ALL_SPECIAL_TOKENS.getD i []) = some (special_token_begin t + i) := by
  have h1 : ALL_SPECIAL_TOKENS[i]? = some ALL_SPECIAL_TOKENS[i] :=
    List.getElem?_eq_getElem hi
  have h2 : ALL_SPECIAL_TOKENS.getD i [] = ALL_SPECIAL_TOKENS[i] := by
    rw [List.getD_eq_getElem?_getD, h1]
    rfl
  rw [h2]
  exact get_token_id_eq t h1

/-! ### Special-token splitting lemmas -/

theorem startsWith_refl (l : List Char) : startsWith l l = true := by
  have h := startsWith_append l []
  rwa [List.append_nil] at h

theorem findOccurrence_nil (text : List Char) : findOccurrence [] text = none := by
  induction text with
  | nil => rfl
  | cons c rest ih => simp [findOccurrence, ih]

theorem findOccurrence_eq_none_iff (toks : List (List Char)) (text : List Char) :
    findOccurrence toks text = none ↔
      ∀ i, toks.find? (fun tok => startsWith tok (text.drop i)) = none := by
  induction text with
  | nil =>
    constructor
    · intro h i
      rw [List.drop_nil]
      exact h
    · intro h
      have := h 0
      rwa [List.drop_nil] at this
  | cons c rest ih =>
    rw [findOccurrence]
    cases hf : toks.find? (fun tok => startsWith tok (c :: rest)) with
    | some tok =>
      constructor
      · intro h
        cases h
      · intro h
        have h0 := h 0
        rw [List.drop_zero, hf] at h0
        cases h0
    | none =>
      rw [ih]
      constructor
      · intro h i
        match i with
        | 0 => rw [List.drop_zero]; exact hf
        | j + 1 => rw [List.drop_succ_cons]; exact h j
      · intro h j
        have := h (j + 1)
        rwa [List.drop_succ_cons] at this

theorem startsWith_of_take {p : List Char} :
    ∀ {l : List Char} {q : Nat}, startsWith p (l.take q) = true → startsWith p l = true := by
  induction p with
  | nil => intro l q _; rfl
  | cons c ps ih =>
    intro l q h
    match l, q with
    | [], _ => rw [List.take_nil] at h; exact h
    | x :: xs, 0 => rw [List.take_zero] at h; cases h
    | x :: xs, r + 1 =>
      rw [List.take_succ_cons] at h
      simp only [startsWith, Bool.and_eq_true] at h ⊢
      exact ⟨h.1, ih h.2⟩

theorem findOccurrence_chunk_none {toks : List (List Char)} {text : List Char}
    (h : findOccurrence toks text = none) (s k : Nat) :
    findOccurrence toks ((text.drop s).take k) = none := by
  rw [findOccurrence_eq_none_iff] at h ⊢
  intro i
  rw [List.find?_eq_none]
  intro tok htok htrue
  have hnone := h (s + i)
  rw [List.find?_eq_none] at hnone
  apply hnone tok htok
  rw [List.drop_take, List.drop_drop] at htrue
  exact startsWith_of_take htrue

theorem splitSpecialsAux_no_occ {allowed : List (List Char)} :
    ∀ (text : List Char) (fuel : Nat) (acc : List Char),
      (∀ i, allowed.find? (fun tok => startsWith tok (text.drop i)) = none) →
      splitSpecialsAux allowed (fuel + text.length) acc text =
        if acc = [] ∧ text = [] then [] else [Sum.inl (acc.reverse ++ text)] := by
  intro text
  induction text with
  | nil =>
    intro fuel acc _
    match fuel with
    | 0 =>
      rw [show splitSpecialsAux allowed (0 + ([] : List Char).length) acc [] =
        (if acc = [] then [] else [Sum.inl acc.reverse]) from rfl]
      by_cases hacc : acc = []
      · simp [hacc]
      · simp [hacc]
    | f + 1 =>
      rw [show splitSpecialsAux allowed (f + 1 + ([] : List Char).length) acc [] =
        (if acc = [] then [] else [Sum.inl acc.reverse]) from rfl]
      by_cases hacc : acc = []
      · simp [hacc]
      · simp [hacc]
  | cons c rest ih =>
    intro fuel acc hnone
    have h0 := hnone 0
    rw [List.drop_zero] at h0
    have hstep : splitSpecialsAux allowed (fuel + (c :: rest).length) acc (c :: rest) =
        splitSpecialsAux allowed (fuel + rest.length) (c :: acc) rest := by
      rw [List.length_cons, show fuel + (rest.length + 1) = (fuel + rest.length) + 1 by omega]
      rw [show splitSpecialsAux allowed ((fuel + rest.length) + 1) acc (c :: rest) =
        (match allowed.find? (fun tok => startsWith tok (c :: rest)) with
        | some tok =>
          (if acc = [] then [] else [Sum.inl acc.reverse]) ++
            (Sum.inr tok :: splitSpecialsAux allowed (fuel + rest.length) []
              (rest.drop (tok.length - 1)))
        | none => splitSpecialsAux allowed (fuel + rest.length) (c :: acc) rest) from rfl]
      rw [h0]
    rw [hstep, ih fuel (c :: acc)
      (fun i => by have := hnone (i + 1); rwa [List.drop_succ_cons] at this)]
    have hne : (c :: acc : List Char) ≠ [] := by simp
    rw [if_neg (by simp), if_neg (by simp)]
    rw [List.reverse_cons, List.append_assoc, List.singleton_append]

theorem splitSpecials_no_occ {allowed : List (List Char)} {text : List Char}
    (h : findOccurrence allowed text = none) :
    splitSpecials allowed text = if text = [] then [] else [Sum.inl text] := by
  rw [splitSpecials]
  have := @splitSpecialsAux_no_occ allowed text 0 []
    ((findOccurrence_eq_none_iff allowed text).mp h)
  rw [Nat.zero_add] at this
  rw [this]
  by_cases htext : text = []
  · simp [htext]
  · simp [htext]

theorem splitSpecials_single_token {tok : List Char} (hne : tok ≠ []) :
    splitSpecials [tok] tok = [Sum.inr tok] := by
  obtain ⟨c, rest, rfl⟩ : ∃ c rest, tok = c :: rest := by
    cases tok with
    | nil => exact absurd rfl hne
    | cons c rest => exact ⟨c, rest, rfl⟩
  rw [splitSpecials, List.length_cons]
  have hfind : [c :: rest].find? (fun tk => startsWith tk (c :: rest)) =
      some (c :: rest) := by
    rw [List.find?_cons_of_pos]
    exact startsWith_refl _
  rw [show splitSpecialsAux [c :: rest] (rest.length + 1) [] (c :: rest) =
      (match [c :: rest].find? (fun tk => startsWith tk (c :: rest)) with
      | some tk =>
        (if ([] : List Char) = [] then [] else [Sum.inl ([] : List Char).reverse]) ++
          (Sum.inr tk :: splitSpecialsAux [c :: rest] rest.length []
            (rest.drop (tk.length - 1)))
      | none => splitSpecialsAux [c :: rest] rest.length [c] rest) from rfl]
  rw [hfind]
  simp only [if_pos rfl, List.nil_append, List.length_cons, Nat.add_sub_cancel]
  rw [List.drop_length]
  rw [show splitSpecialsAux [c :: rest] rest.length [] [] =
    (if ([] : List Char) = [] then [] else [Sum.inl ([] : List Char).reverse]) from ?_]
  · simp
  · match hrl : rest.length with
    | 0 => rfl
    | f + 1 => rfl

/-! ### BPE lemmas: merging preserves the bytes and stays inside the table -/

theorem minMergeCandidate_some {ranks : List (List Nat × Nat)} :
    ∀ {parts : List (List Nat)} {i r : Nat},
      minMergeCandidate ranks parts = some (i, r) →
      ∃ pre p1 p2 suf, parts = pre ++ p1 :: p2 :: suf ∧ pre.length = i ∧
        pyDictGet ranks (p1 ++ p2) = some r ∧
        mergeAt i parts = pre ++ (p1 ++ p2) :: suf := by
  intro parts
  induction parts with
  | nil => intro i r h; cases h
  | cons p1 rest ih =>
    intro i r h
    match rest with
    | [] => cases h
    | p2 :: rest2 =>
      rw [minMergeCandidate] at h
      cases hget : pyDictGet ranks (p1 ++ p2) with
      | some r0 =>
        rw [hget] at h
        cases htail : minMergeCandidate ranks (p2 :: rest2) with
        | some q =>
          rw [htail] at h
          dsimp only at h
          by_cases hle : r0 ≤ q.2
          · rw [if_pos hle] at h
            cases h
            exact ⟨[], p1, p2, rest2, rfl, rfl, hget, rfl⟩
          · rw [if_neg hle] at h
            cases h
            obtain ⟨pre, q1, q2, suf, heq, hlen, hq, hmerge⟩ := ih htail
            refine ⟨p1 :: pre, q1, q2, suf, by rw [List.cons_append, ← heq], by
              simp [hlen], hq, ?_⟩
            rw [← hlen]
            rw [show mergeAt (pre.length + 1) (p1 :: p2 :: rest2) =
              p1 :: mergeAt pre.length (p2 :: rest2) from rfl]
            rw [hlen, hmerge, List.cons_append]
        | none =>
          rw [htail] at h
          dsimp only at h
          cases h
          exact ⟨[], p1, p2, rest2, rfl, rfl, hget, rfl⟩
      | none =>
        rw [hget] at h
        cases htail : minMergeCandidate ranks (p2 :: rest2) with
        | some q =>
          rw [htail] at h
          dsimp only at h
          cases h
          obtain ⟨pre, q1, q2, suf, heq, hlen, hq, hmerge⟩ := ih htail
          refine ⟨p1 :: pre, q1, q2, suf, by rw [List.cons_append, ← heq], by
            simp [hlen], hq, ?_⟩
          rw [← hlen]
          rw [show mergeAt (pre.length + 1) (p1 :: p2 :: rest2) =
            p1 :: mergeAt pre.length (p2 :: rest2) from rfl]
          rw [hlen, hmerge, List.cons_append]
        | none =>
          rw [htail] at h
          dsimp only at h
          cases h

theorem bpeMergeLoop_flatten (ranks : List (List Nat × Nat)) :
    ∀ (fuel : Nat) (parts : List (List Nat)),
      (bpeMergeLoop ranks fuel parts).flatten = parts.flatten := by
  intro fuel
  induction fuel with
  | zero => intro parts; rfl
  | succ f ih =>
    intro parts
    rw [bpeMergeLoop]
    cases hm : minMergeCandidate ranks parts with
    | none => rfl
    | some q =>
      obtain ⟨pre, p1, p2, suf, heq, hlen, _, hmerge⟩ := minMergeCandidate_some (by rw [hm])
      rw [ih, hmerge, heq]
      simp [List.flatten_append]

theorem bpeMergeLoop_inTable (ranks : List (List Nat × Nat)) :
    ∀ (fuel : Nat) (parts : List (List Nat)),
      (∀ p ∈ parts, (pyDictGet ranks p).isSome) →
      ∀ q ∈ bpeMergeLoop ranks fuel parts, (pyDictGet ranks q).isSome := by
  intro fuel
  induction fuel with
  | zero => intro parts h; exact h
  | succ f ih =>
    intro parts h
    rw [bpeMergeLoop]
    cases hm : minMergeCandidate ranks parts with
    | none => exact h
    | some q0 =>
      obtain ⟨pre, p1, p2, suf, heq, hlen, hget, hmerge⟩ := minMergeCandidate_some (by rw [hm])
      apply ih
      rw [hmerge]
      intro q hq
      rcases List.mem_append.mp hq with hq | hq
      · exact h q (by rw [heq]; exact List.mem_append_left _ hq)
      · rcases List.mem_cons.mp hq with rfl | hq
        · rw [hget]; rfl
        · exact h q (by
            rw [heq]
            exact List.mem_append_right _ (List.mem_cons_of_mem _
              (List.mem_cons_of_mem _ hq)))

theorem flatten_map_singleton (piece : List Nat) :
    (piece.map (fun b => ([b] : List Nat))).flatten = piece := by
  induction piece with
  | nil => rfl
  | cons b rest ih => simp [ih]

/-! ### Decoding inverts encoding on the produced ids -/

/-- The ids decode (through the tiktoken decode table) to exactly the
given byte sequence. -/
def DecodesTo (t : FishTokenizer) (ids : List Nat) (bs : List Nat) : Prop :=
  ∃ bss, mapME (decodeId t) ids = .ok bss ∧ bss.flatten = bs

theorem decodesTo_nil (t : FishTokenizer) : DecodesTo t [] [] := ⟨[], rfl, rfl⟩

theorem decodesTo_append {t : FishTokenizer} {ids₁ ids₂ bs₁ bs₂ : List Nat}
    (h₁ : DecodesTo t ids₁ bs₁) (h₂ : DecodesTo t ids₂ bs₂) :
    DecodesTo t (ids₁ ++ ids₂) (bs₁ ++ bs₂) := by
  obtain ⟨bss₁, hm₁, hf₁⟩ := h₁
  obtain ⟨bss₂, hm₂, hf₂⟩ := h₂
  exact ⟨bss₁ ++ bss₂, mapME_append _ _ _ hm₁ hm₂, by
    rw [List.flatten_append, hf₁, hf₂]⟩

theorem decodeId_rank {t : FishTokenizer}
    (hvals : (t.mergeableRanks.map Prod.snd).Nodup) {q : List Nat} {r : Nat}
    (h : pyDictGet t.mergeableRanks q = some r) : decodeId t r = .ok q := by
  rw [decodeId]
  have hmem : (q, r) ∈ t.mergeableRanks := pyDictGet_mem h
  have hswap : (r, q) ∈ t.mergeableRanks.map (fun p => (p.2, p.1)) :=
    List.mem_map.mpr ⟨(q, r), hmem, rfl⟩
  have hkeys : ((t.mergeableRanks.map (fun p => (p.2, p.1))).map Prod.fst).Nodup := by
    rw [List.map_map]
    have hcomp : (Prod.fst ∘ fun p : List Nat × Nat => (p.2, p.1)) = Prod.snd := rfl
    rw [hcomp]
    exact hvals
  rw [pyDictGet_of_nodup_mem hkeys hswap]

theorem decodesTo_rank {t : FishTokenizer}
    (hvals : (t.mergeableRanks.map Prod.snd).Nodup) {q : List Nat} {r : Nat}
    (h : pyDictGet t.mergeableRanks q = some r) : DecodesTo t [r] q := by
  refine ⟨[q], ?_, by simp⟩
  simp [mapME, decodeId_rank hvals h]

theorem lookup_parts {ranks : List (List Nat × Nat)} :
    ∀ {parts : List (List Nat)},
      (∀ p ∈ parts, (pyDictGet ranks p).isSome) →
      ∃ ids, mapME (fun p =>
          match pyDictGet ranks p with
          | some r => Except.ok r
          | none => Except.error (PyErr.unknownRank p)) parts = .ok ids ∧
        List.Forall₂ (fun p r => pyDictGet ranks p = some r) parts ids := by
  intro parts
  induction parts with
  | nil => intro _; exact ⟨[], rfl, List.Forall₂.nil⟩
  | cons p rest ih =>
    intro h
    have hp := h p (List.mem_cons_self _ _)
    obtain ⟨r, hr⟩ := Option.isSome_iff_exists.mp hp
    obtain ⟨ids, hm, hrel⟩ := ih (fun q hq => h q (List.mem_cons_of_mem _ hq))
    refine ⟨r :: ids, ?_, List.Forall₂.cons hr hrel⟩
    simp [mapME, hr, hm]

theorem decodesTo_of_forall₂ {t : FishTokenizer}
    (hvals : (t.mergeableRanks.map Prod.snd).Nodup) {parts : List (List Nat)}
    {ids : List Nat}
    (hrel : List.Forall₂ (fun p r => pyDictGet t.mergeableRanks p = some r) parts ids) :
    DecodesTo t ids parts.flatten := by
  induction hrel with
  | nil => exact decodesTo_nil t
  | cons h hrel ih =>
    rw [List.flatten_cons]
    exact decodesTo_append (decodesTo_rank hvals h) ih

theorem encodePiece_decodesTo {t : FishTokenizer}
    (hvals : (t.mergeableRanks.map Prod.snd).Nodup) {piece : List Nat}
    (hb : ∀ b ∈ piece, (pyDictGet t.mergeableRanks [b]).isSome) :
    ∃ ids, encodePiece t.mergeableRanks piece = .ok ids ∧ DecodesTo t ids piece := by
  rw [encodePiece]
  cases hwhole : pyDictGet t.mergeableRanks piece with
  | some r => exact ⟨[r], rfl, decodesTo_rank hvals hwhole⟩
  | none =>
    rw [byte_pair_encode]
    have hparts0 : ∀ p ∈ piece.map (fun b => ([b] : List Nat)),
        (pyDictGet t.mergeableRanks p).isSome := by
      intro p hp
      obtain ⟨b, hbmem, rfl⟩ := List.mem_map.mp hp
      exact hb b hbmem
    have hpartsF := bpeMergeLoop_inTable t.mergeableRanks piece.length _ hparts0
    obtain ⟨ids, hm, hrel⟩ := lookup_parts hpartsF
    refine ⟨ids, hm, ?_⟩
    have hd := decodesTo_of_forall₂ hvals hrel
    rwa [bpeMergeLoop_flatten, flatten_map_singleton] at hd

theorem mapME_decodesTo {t : FishTokenizer} {f : α → Except PyErr (List Nat)}
    {g : α → List Nat} :
    ∀ {xs : List α},
      (∀ x ∈ xs, ∃ ids, f x = .ok ids ∧ DecodesTo t ids (g x)) →
      ∃ idss, mapME f xs = .ok idss ∧
        DecodesTo t idss.flatten (xs.map g).flatten := by
  intro xs
  induction xs with
  | nil => intro _; exact ⟨[], rfl, decodesTo_nil t⟩
  | cons x rest ih =>
    intro h
    obtain ⟨ids, hfx, hdec⟩ := h x (List.mem_cons_self _ _)
    obtain ⟨idss, hm, hdecs⟩ := ih (fun y hy => h y (List.mem_cons_of_mem _ hy))
    refine ⟨ids :: idss, by simp [mapME, hfx, hm], ?_⟩
    rw [List.flatten_cons, List.map_cons, List.flatten_cons]
    exact decodesTo_append hdec hdecs

theorem utf8Encode_mem_lt {s : List Char} : ∀ b ∈ utf8Encode s, b < 256 := by
  intro b hb
  rw [utf8Encode] at hb
  obtain ⟨c, _, hc⟩ := List.mem_flatMap.mp hb
  exact charUtf8_lt_256 c b hc

theorem encodeOrdinary_decodesTo {t : FishTokenizer}
    (hvals : (t.mergeableRanks.map Prod.snd).Nodup)
    (hbytes : ∀ b, b < 256 → (pyDictGet t.mergeableRanks [b]).isSome)
    (hseg : ∀ s, (t.segment s).flatten = s) (s : List Char) :
    ∃ ids, encodeOrdinary t s = .ok ids ∧ DecodesTo t ids (utf8Encode s) := by
  rw [encodeOrdinary]
  obtain ⟨idss, hm, hdec⟩ := mapME_decodesTo (t := t)
    (f := fun part => encodePiece t.mergeableRanks (utf8Encode part))
    (g := utf8Encode)
    (fun part (_ : part ∈ t.segment s) => encodePiece_decodesTo hvals
      (fun b hb => hbytes b (utf8Encode_mem_lt b hb)))
  refine ⟨idss.flatten, by rw [hm]; rfl, ?_⟩
  rwa [← utf8Encode_flatten, hseg] at hdec

theorem tkEncode_ordinary_decodesTo {t : FishTokenizer}
    (hvals : (t.mergeableRanks.map Prod.snd).Nodup)
    (hbytes : ∀ b, b < 256 → (pyDictGet t.mergeableRanks [b]).isSome)
    (hseg : ∀ s, (t.segment s).flatten = s)
    {allowed : List (List Char)} {s : List Char}
    (hno : findOccurrence allowed s = none) :
    ∃ ids, tkEncode t allowed [] s = .ok ids ∧ DecodesTo t ids (utf8Encode s) := by
  rw [tkEncode, findOccurrence_nil]
  rw [splitSpecials_no_occ hno]
  by_cases hs : s = []
  · subst hs
    exact ⟨[], by simp [mapME, Except.map], decodesTo_nil t⟩
  · rw [if_neg hs]
    obtain ⟨ids, hok, hdec⟩ := encodeOrdinary_decodesTo hvals hbytes hseg s
    refine ⟨ids, ?_, hdec⟩
    simp only [mapME, hok]
    simp [Except.map]

/-! ### The only errors `tkEncode` raises with an empty disallowed set -/

theorem except_map_error {x : Except PyErr α} {f : α → β} {e : PyErr}
    (h : x.map f = .error e) : x = .error e := by
  cases x with
  | error e₂ =>
    simp only [Except.map] at h
    cases h
    rfl
  | ok a => simp [Except.map] at h

theorem encodePiece_error {ranks : List (List Nat × Nat)} {bs : List Nat} {e : PyErr}
    (h : encodePiece ranks bs = .error e) : ∃ p, e = .unknownRank p := by
  rw [encodePiece] at h
  cases hw : pyDictGet ranks bs with
  | some r => rw [hw] at h; cases h
  | none =>
    rw [hw, byte_pair_encode] at h
    obtain ⟨p, _, hp⟩ := mapME_error_mem h
    cases hq : pyDictGet ranks p with
    | some r => rw [hq] at hp; cases hp
    | none =>
      rw [hq] at hp
      cases hp
      exact ⟨p, rfl⟩

theorem tkEncode_not_disallowed (t : FishTokenizer) (allowed : List (List Char))
    (text : List Char) (tok : List Char) :
    tkEncode t allowed [] text ≠ .error (.disallowedSpecialToken tok) := by
  rw [tkEncode, findOccurrence_nil]
  intro h
  have h₂ := except_map_error h
  obtain ⟨piece, _, hp⟩ := mapME_error_mem h₂
  cases piece with
  | inl ord =>
    dsimp only at hp
    rw [encodeOrdinary] at hp
    have h₃ := except_map_error hp
    obtain ⟨part, _, hpart⟩ := mapME_error_mem h₃
    obtain ⟨p, hpe⟩ := encodePiece_error hpart
    simp at hpe
  | inr tk =>
    dsimp only at hp
    cases hq : pyDictGet (all_special_tokens_with_ids t) tk with
    | some id => rw [hq] at hp; cases hp
    | none =>
      rw [hq] at hp
      simp at hp

/-! ### Canonical model files round-trip through load and save -/

theorem splitWsAux_no_ws : ∀ (s : List Char) (acc : List Char),
    (∀ c ∈ s, isPyWs c = false) →
    splitWsAux acc s = if acc.reverse ++ s = [] then [] else [acc.reverse ++ s] := by
  intro s
  induction s with
  | nil =>
    intro acc _
    rw [show splitWsAux acc [] = (if acc = [] then [] else [acc.reverse]) from rfl]
    by_cases hacc : acc = []
    · simp [hacc]
    · simp [hacc]
  | cons c rest ih =>
    intro acc hns
    have hc : isPyWs c = false := hns c (List.mem_cons_self _ _)
    rw [show splitWsAux acc (c :: rest) =
      (if isPyWs c then (if acc = [] then [] else [acc.reverse]) ++ splitWsAux [] rest
       else splitWsAux (c :: acc) rest) from rfl]
    rw [hc]
    simp only [Bool.false_eq_true, if_false]
    rw [ih (c :: acc) (fun x hx => hns x (List.mem_cons_of_mem _ hx))]
    rw [List.reverse_cons, List.append_assoc, List.singleton_append]

theorem splitWsAux_sep (B : List Char) : ∀ (A : List Char) (acc : List Char),
    (∀ c ∈ A, isPyWs c = false) →
    splitWsAux acc (A ++ ' ' :: B) =
      (if acc.reverse ++ A = [] then [] else [acc.reverse ++ A]) ++ splitWsAux [] B := by
  intro A
  induction A with
  | nil =>
    intro acc _
    rw [List.nil_append]
    rw [show splitWsAux acc (' ' :: B) =
      (if isPyWs ' ' then (if acc = [] then [] else [acc.reverse]) ++ splitWsAux [] B
       else splitWsAux (' ' :: acc) B) from rfl]
    rw [show isPyWs ' ' = true from rfl]
    simp only [if_true, List.append_nil]
    by_cases hacc : acc = []
    · simp [hacc]
    · simp [hacc]
  | cons a A2 ih =>
    intro acc hns
    have ha : isPyWs a = false := hns a (List.mem_cons_self _ _)
    rw [List.cons_append]
    rw [show splitWsAux acc (a :: (A2 ++ ' ' :: B)) =
      (if isPyWs a then (if acc = [] then [] else [acc.reverse]) ++ splitWsAux [] (A2 ++ ' ' :: B)
       else splitWsAux (a :: acc) (A2 ++ ' ' :: B)) from rfl]
    rw [ha]
    simp only [Bool.false_eq_true, if_false]
    rw [ih (a :: acc) (fun x hx => hns x (List.mem_cons_of_mem _ hx))]
    rw [List.reverse_cons, List.append_assoc, List.singleton_append]

theorem splitWs_two {A B : List Char} (hA : A ≠ []) (hAc : ∀ c ∈ A, isPyWs c = false)
    (hB : B ≠ []) (hBc : ∀ c ∈ B, isPyWs c = false) :
    splitWs (A ++ ' ' :: B) = [A, B] := by
  rw [splitWs, splitWsAux_sep B A [] hAc]
  rw [show splitWsAux [] B = splitWs B from rfl]
  rw [splitWs, splitWsAux_no_ws B [] hBc]
  simp [hA, hB]

theorem splitlinesAux_line (rest : List Char) : ∀ (l : List Char) (acc : List Char),
    (∀ c ∈ l, ¬ c = '\n') →
    splitlinesAux acc (l ++ '\n' :: rest) = (acc.reverse ++ l) :: splitlinesAux [] rest := by
  intro l
  induction l with
  | nil =>
    intro acc _
    rw [List.nil_append]
    rw [show splitlinesAux acc ('\n' :: rest) =
      (if '\n' = '\n' then acc.reverse :: splitlinesAux [] rest
       else splitlinesAux ('\n' :: acc) rest) from rfl]
    simp
  | cons a l2 ih =>
    intro acc hnl
    have ha : ¬ a = '\n' := hnl a (List.mem_cons_self _ _)
    rw [List.cons_append]
    rw [show splitlinesAux acc (a :: (l2 ++ '\n' :: rest)) =
      (if a = '\n' then acc.reverse :: splitlinesAux [] (l2 ++ '\n' :: rest)
       else splitlinesAux (a :: acc) (l2 ++ '\n' :: rest)) from rfl]
    rw [if_neg ha]
    rw [ih (a :: acc) (fun x hx => hnl x (List.mem_cons_of_mem _ hx))]
    rw [List.reverse_cons, List.append_assoc, List.singleton_append]

theorem splitlines_lines : ∀ (ls : List (List Char)),
    (∀ l ∈ ls, ∀ c ∈ l, ¬ c = '\n') →
    splitlines ((ls.map (fun l => l ++ ['\n'])).flatten) = ls := by
  intro ls
  induction ls with
  | nil => intro _; rfl
  | cons l ls2 ih =>
    intro h
    rw [List.map_cons, List.flatten_cons, List.append_assoc, List.singleton_append]
    rw [splitlines, splitlinesAux_line _ l [] (h l (List.mem_cons_self _ _))]
    rw [show splitlinesAux [] ((ls2.map (fun l => l ++ ['\n'])).flatten) =
      splitlines ((ls2.map (fun l => l ++ ['\n'])).flatten) from rfl]
    rw [ih (fun x hx => h x (List.mem_cons_of_mem _ hx))]
    simp

theorem not_ws_of_gt {c : Char} (h : 32 < c.toNat) : isPyWs c = false := by
  simp only [isPyWs, Bool.or_eq_false_iff, decide_eq_false_iff_not]
  omega

theorem ne_nl_of_gt {c : Char} (h : 32 < c.toNat) : ¬ c = '\n' := by
  intro heq
  rw [heq] at h
  have : ('\n' : Char).toNat = 10 := by decide
  omega

theorem digit_not_ws {c : Char} (h : 48 ≤ c.toNat ∧ c.toNat < 58) : isPyWs c = false :=
  not_ws_of_gt (by omega)

theorem mapMO_pointwise {f : β → Option γ} {g : γ → β} :
    ∀ {xs : List γ}, (∀ x ∈ xs, f (g x) = some x) → mapMO f (xs.map g) = some xs := by
  intro xs
  induction xs with
  | nil => intro _; rfl
  | cons x rest ih =>
    intro h
    rw [List.map_cons, mapMO, h x (List.mem_cons_self _ _),
      ih (fun y hy => h y (List.mem_cons_of_mem _ hy))]

theorem foldl_assign_eq {entries : List (List Nat × Nat)}
    (h : (entries.map Prod.fst).Nodup) :
    entries.foldl (fun d p => pyDictAssign d p.1 p.2) [] = entries := by
  suffices hgen : ∀ (entries d : List (List Nat × Nat)),
      ((d ++ entries).map Prod.fst).Nodup →
      entries.foldl (fun d p => pyDictAssign d p.1 p.2) d = d ++ entries by
    have := hgen entries [] (by simpa using h)
    simpa using this
  intro entries
  induction entries with
  | nil => intro d _; simp
  | cons p rest ih =>
    intro d hnd
    rw [List.foldl_cons]
    have hp1 : p.1 ∉ d.map Prod.fst := by
      rw [List.map_append, List.nodup_append] at hnd
      intro hmem
      exact hnd.2.2 hmem (by simp)
    rw [pyDictAssign_not_mem hp1]
    have hstep := ih (d ++ [p]) (by
      rw [List.append_assoc, List.singleton_append]
      exact hnd)
    rw [hstep, List.append_assoc, List.singleton_append]

theorem parse_canonical_line {k : List Nat} {r : Nat} (hk : k ≠ [])
    (hb : ∀ b ∈ k, b < 256) :
    parseBpeLine ((b64encode k ++ [' ']) ++ natDecimal r) = some (k, r) := by
  have hsplit : splitWs ((b64encode k ++ [' ']) ++ natDecimal r) =
      [b64encode k, natDecimal r] := by
    rw [List.append_assoc, List.singleton_append]
    exact splitWs_two (b64encode_ne_nil hk)
      (fun c hc => not_ws_of_gt (b64encode_chars hb c hc))
      (natDecimal_ne_nil r) (fun c hc => digit_not_ws (natDecimal_digits c hc))
  rw [parseBpeLine, hsplit]
  dsimp only
  rw [b64decode_b64encode hb, parsePyNat_natDecimal]

theorem load_canonical {entries : List (List Nat × Nat)}
    (hkeys : (entries.map Prod.fst).Nodup)
    (hne : ∀ p ∈ entries, p.1 ≠ [])
    (hbytes : ∀ p ∈ entries, ∀ b ∈ p.1, b < 256) :
    load_tiktoken_bpe (saveTiktokenText entries) = some entries := by
  rw [load_tiktoken_bpe, saveTiktokenText]
  have hmapeq : (entries.map (fun p => b64encode p.1 ++ [' '] ++ natDecimal p.2 ++ ['\n'])) =
      (entries.map (fun p => b64encode p.1 ++ [' '] ++ natDecimal p.2)).map
        (fun l => l ++ ['\n']) := by
    rw [List.map_map]
    rfl
  rw [hmapeq]
  rw [splitlines_lines _ (by
    intro l hl c hc
    obtain ⟨p, hp, rfl⟩ := List.mem_map.mp hl
    rcases List.mem_append.mp hc with hc | hc
    · rcases List.mem_append.mp hc with hc | hc
      · exact ne_nl_of_gt (b64encode_chars (hbytes p hp) c hc)
      · rw [List.mem_singleton] at hc
        subst hc
        decide
    · exact ne_nl_of_gt (by have := natDecimal_digits c hc; omega))]
  rw [List.filter_eq_self.mpr (by
    intro l hl
    obtain ⟨p, hp, rfl⟩ := List.mem_map.mp hl
    have hlne : (b64encode p.1 ++ [' ']) ++ natDecimal p.2 ≠ [] := by
      intro hnil
      rw [List.append_eq_nil] at hnil
      exact natDecimal_ne_nil _ hnil.2
    simp only [Bool.not_eq_eq_eq_not, Bool.not_false]
    simp [hlne])]
  rw [mapMO_pointwise (f := parseBpeLine)
    (g := fun p : List Nat × Nat => b64encode p.1 ++ [' '] ++ natDecimal p.2)
    (fun p hp => parse_canonical_line (hne p hp) (hbytes p hp))]
  dsimp only
  rw [foldl_assign_eq hkeys]

/-! ### The saved special-tokens JSON parses back, keys in table order -/

theorem jsonEscapeChar_plain {c : Char} (h32 : 32 ≤ c.toNat) (hq : ¬ c = '"')
    (hbs : ¬ c = '\\') : jsonEscapeChar c = [c] := by
  have hn : ¬ c = '\n' := fun heq => by rw [heq] at h32; revert h32; decide
  have ht : ¬ c = '\t' := fun heq => by rw [heq] at h32; revert h32; decide
  have hr : ¬ c = '\r' := fun heq => by rw [heq] at h32; revert h32; decide
  rw [jsonEscapeChar, if_neg hq, if_neg hbs, if_neg hn, if_neg ht, if_neg hr,
    if_neg (by omega), if_neg (by omega), if_neg (by omega)]

theorem jsonEscape_plain {key : List Char}
    (h : ∀ c ∈ key, 32 ≤ c.toNat ∧ ¬ c = '"' ∧ ¬ c = '\\') :
    key.flatMap jsonEscapeChar = key := by
  induction key with
  | nil => rfl
  | cons c rest ih =>
    rw [List.flatMap_cons]
    have hc := h c (List.mem_cons_self _ _)
    rw [jsonEscapeChar_plain hc.1 hc.2.1 hc.2.2,
      ih (fun x hx => h x (List.mem_cons_of_mem _ hx)), List.singleton_append]

theorem scanKey_app {key : List Char} (h : ∀ c ∈ key, ¬ c = '"') (rest : List Char) :
    scanKey (key ++ '"' :: rest) = some (key, rest) := by
  induction key with
  | nil =>
    rw [List.nil_append]
    rw [show scanKey ('"' :: rest) =
      (if ('"' : Char) = '"' then some ([], rest)
       else match scanKey rest with
            | some q => some ('"' :: q.1, q.2)
            | none => none) from rfl]
    rw [if_pos rfl]
  | cons c ks ih =>
    rw [List.cons_append]
    rw [show scanKey (c :: (ks ++ '"' :: rest)) =
      (if c = '"' then some ([], ks ++ '"' :: rest)
       else match scanKey (ks ++ '"' :: rest) with
            | some q => some (c :: q.1, q.2)
            | none => none) from rfl]
    rw [if_neg (h c (List.mem_cons_self _ _)),
      ih (fun x hx => h x (List.mem_cons_of_mem _ hx))]

theorem scanDigits_app {ds : List Char} (hd : ∀ c ∈ ds, 48 ≤ c.toNat ∧ c.toNat < 58) :
    ∀ {r : List Char}, (∀ c, r.head? = some c → ¬ (48 ≤ c.toNat ∧ c.toNat < 58)) →
    scanDigits (ds ++ r) = (ds, r) := by
  induction ds with
  | nil =>
    intro r hr
    rw [List.nil_append]
    match r with
    | [] => rfl
    | c :: rest =>
      rw [show scanDigits (c :: rest) =
        (if 48 ≤ c.toNat ∧ c.toNat < 58 then
          ((c :: (scanDigits rest).1), (scanDigits rest).2)
         else ([], c :: rest)) from rfl]
      rw [if_neg (hr c rfl)]
  | cons d ds2 ih =>
    intro r hr
    rw [List.cons_append]
    rw [show scanDigits (d :: (ds2 ++ r)) =
      (if 48 ≤ d.toNat ∧ d.toNat < 58 then
        ((d :: (scanDigits (ds2 ++ r)).1), (scanDigits (ds2 ++ r)).2)
       else ([], d :: (ds2 ++ r))) from rfl]
    rw [if_pos (hd d (List.mem_cons_self _ _)),
      ih (fun x hx => hd x (List.mem_cons_of_mem _ hx)) hr]

theorem jsonParseEntriesAux_step (f : Nat) (Y : List Char) :
    jsonParseEntriesAux (f + 1) (' ' :: ' ' :: '"' :: Y) =
      (match scanKey Y with
      | some q =>
        match q.2 with
        | d1 :: d2 :: r2 =>
          if d1 = ':' ∧ d2 = ' ' then
            match scanDigits r2 with
            | (ds, r3) =>
              if ds = [] then none
              else
                match r3 with
                | e1 :: e2 :: r4 =>
                  if e1 = ',' ∧ e2 = '\n' then
                    match jsonParseEntriesAux f r4 with
                    | some es => some ((q.1, decimalVal ds) :: es)
                    | none => none
                  else if e1 = '\n' ∧ e2 :: r4 = [Char.ofNat 125] then
                    some [(q.1, decimalVal ds)]
                  else none
                | _ => none
          else none
        | _ => none
      | none => none) := by
  rw [show jsonParseEntriesAux (f + 1) (' ' :: ' ' :: '"' :: Y) =
    (if (' ' : Char) = ' ' ∧ (' ' : Char) = ' ' ∧ ('"' : Char) = '"' then
      (match scanKey Y with
      | some q =>
        match q.2 with
        | d1 :: d2 :: r2 =>
          if d1 = ':' ∧ d2 = ' ' then
            match scanDigits r2 with
            | (ds, r3) =>
              if ds = [] then none
              else
                match r3 with
                | e1 :: e2 :: r4 =>
                  if e1 = ',' ∧ e2 = '\n' then
                    match jsonParseEntriesAux f r4 with
                    | some es => some ((q.1, decimalVal ds) :: es)
                    | none => none
                  else if e1 = '\n' ∧ e2 :: r4 = [Char.ofNat 125] then
                    some [(q.1, decimalVal ds)]
                  else none
                | _ => none
          else none
        | _ => none
      | none => none)
    else none) from rfl]
  rw [if_pos ⟨rfl, rfl, rfl⟩]

theorem jsonEntryText_shape (p : List Char × Nat)
    (hplain : ∀ c ∈ p.1, 32 ≤ c.toNat ∧ ¬ c = '"' ∧ ¬ c = '\\') (tail : List Char) :
    jsonEntryText p ++ tail =
      ' ' :: ' ' :: '"' :: (p.1 ++ '"' :: ':' :: ' ' :: (natDecimal p.2 ++ tail)) := by
  rw [jsonEntryText, jsonEscape_plain hplain]
  simp [List.append_assoc]

theorem jsonParseEntriesAux_entries :
    ∀ (entries : List (List Char × Nat)) (fuel : Nat), entries ≠ [] →
      entries.length ≤ fuel →
      (∀ p ∈ entries, ∀ c ∈ p.1, 32 ≤ c.toNat ∧ ¬ c = '"' ∧ ¬ c = '\\') →
      jsonParseEntriesAux fuel (jsonEntriesText entries ++ ['\n', Char.ofNat 125]) =
        some entries := by
  intro entries
  induction entries with
  | nil => intro fuel h; exact absurd rfl h
  | cons p rest ih =>
    intro fuel _ hfuel hplain
    have hp := hplain p (List.mem_cons_self _ _)
    match fuel with
    | 0 => simp at hfuel
    | f + 1 =>
      by_cases hrest : rest = []
      · subst hrest
        rw [show jsonEntriesText [p] = jsonEntryText p from rfl]
        rw [jsonEntryText_shape p hp]
        rw [jsonParseEntriesAux_step]
        rw [scanKey_app (fun c hc => (hp c hc).2.1)]
        dsimp only
        rw [if_pos ⟨rfl, rfl⟩]
        rw [scanDigits_app natDecimal_digits (by
          intro c hc
          rw [List.head?_cons] at hc
          cases hc
          decide)]
        dsimp only
        rw [if_neg (natDecimal_ne_nil _)]
        rw [if_neg (by
          intro hcom
          have := hcom.1
          revert this
          decide)]
        rw [if_pos ⟨rfl, rfl⟩, decimalVal_natDecimal]
      · obtain ⟨q, rest2, rfl⟩ : ∃ q rest2, rest = q :: rest2 := by
          cases rest with
          | nil => exact absurd rfl hrest
          | cons q rest2 => exact ⟨q, rest2, rfl⟩
        rw [show jsonEntriesText (p :: q :: rest2) =
          jsonEntryText p ++ ',' :: '\n' :: jsonEntriesText (q :: rest2) from rfl]
        rw [List.append_assoc, List.cons_append, List.cons_append]
        rw [jsonEntryText_shape p hp]
        rw [jsonParseEntriesAux_step]
        rw [scanKey_app (fun c hc => (hp c hc).2.1)]
        dsimp only
        rw [if_pos ⟨rfl, rfl⟩]
        rw [scanDigits_app natDecimal_digits (by
          intro c hc
          rw [List.head?_cons] at hc
          cases hc
          decide)]
        dsimp only
        rw [if_neg (natDecimal_ne_nil _)]
        rw [if_pos ⟨rfl, rfl⟩]
        rw [ih f (by simp) (by simp at hfuel ⊢; omega)
          (fun x hx => hplain x (List.mem_cons_of_mem _ hx))]
        rw [decimalVal_natDecimal]

theorem jsonEntriesText_length : ∀ entries : List (List Char × Nat),
    entries.length ≤ (jsonEntriesText entries).length := by
  intro entries
  induction entries with
  | nil => simp [jsonEntriesText]
  | cons p rest ih =>
    by_cases h : rest = []
    · subst h
      rw [show jsonEntriesText [p] = jsonEntryText p from rfl]
      rw [jsonEntryText]
      simp
    · obtain ⟨q, rest2, rfl⟩ : ∃ q rest2, rest = q :: rest2 := by
        cases rest with
        | nil => exact absurd rfl h
        | cons q rest2 => exact ⟨q, rest2, rfl⟩
      rw [show jsonEntriesText (p :: q :: rest2) =
        jsonEntryText p ++ ',' :: '\n' :: jsonEntriesText (q :: rest2) from rfl]
      rw [jsonEntryText]
      simp only [List.length_cons, List.length_append]
      simp only [List.length_cons] at ih ⊢
      omega

theorem jsonParseObj_dump {entries : List (List Char × Nat)}
    (hplain : ∀ p ∈ entries, ∀ c ∈ p.1, 32 ≤ c.toNat ∧ ¬ c = '"' ∧ ¬ c = '\\') :
    jsonParseObj (jsonDumpObj entries) = some entries := by
  match entries with
  | [] => rfl
  | p :: rest =>
    rw [show jsonDumpObj (p :: rest) =
      (Char.ofNat 123 :: '\n' :: jsonEntriesText (p :: rest)) ++ ['\n', Char.ofNat 125]
      from rfl]
    rw [List.cons_append, List.cons_append]
    rw [jsonParseObj]
    rw [if_neg (by
      intro heq
      injection heq with h1 h2
      injection h2 with h3 h4
      revert h3
      decide)]
    rw [if_pos ⟨rfl, rfl⟩]
    apply jsonParseEntriesAux_entries (p :: rest) _ (by simp)
    · have hb := jsonEntriesText_length (p :: rest)
      simp only [List.length_cons, List.length_append] at hb ⊢
      omega
    · exact hplain

/-! ### Concrete tokenizers for the witnesses -/

/-- A tokenizer over the full single-byte merge table, with the trivial
segmenter (which satisfies the segmentation contract). -/
def T256 : FishTokenizer where
  mergeableRanks := (List.range 256).map (fun b => ([b], b))
  segment := fun s => [s]
  nodupKeys := by
    rw [List.map_map]
    have hcomp : (Prod.fst ∘ fun b : Nat => (([b] : List Nat), b)) =
        fun b : Nat => ([b] : List Nat) := rfl
    rw [hcomp]
    exact (List.nodup_range 256).map (fun a b h => by injection h)

theorem T256_segment : ∀ s, (T256.segment s).flatten = s := by
  intro s
  simp [T256]

theorem T256_vals : (T256.mergeableRanks.map Prod.snd).Nodup := by
  rw [show T256.mergeableRanks = (List.range 256).map (fun b => (([b] : List Nat), b))
    from rfl]
  rw [List.map_map]
  have hcomp : (Prod.snd ∘ fun b : Nat => (([b] : List Nat), b)) = id := rfl
  rw [hcomp, List.map_id]
  exact List.nodup_range 256

theorem T256_bytes : ∀ b, b < 256 → (pyDictGet T256.mergeableRanks [b]).isSome := by
  intro b hb
  rw [pyDictGet_isSome_iff]
  rw [show T256.mergeableRanks = (List.range 256).map (fun b => (([b] : List Nat), b))
    from rfl]
  rw [List.map_map]
  have hcomp : (Prod.fst ∘ fun b : Nat => (([b] : List Nat), b)) =
      fun b : Nat => ([b] : List Nat) := rfl
  rw [hcomp]
  exact List.mem_map.mpr ⟨b, List.mem_range.mpr hb, rfl⟩

/-- A one-entry tokenizer matching the canonical one-line model file
`AAAA 0`. -/
def T1 : FishTokenizer where
  mergeableRanks := [([0, 0, 0], 0)]
  segment := fun s => [s]
  nodupKeys := by simp

/-! ### Chunk shapes and special-free texts -/

theorem tokenize_chunk_shape {text : List Char} :
    ∀ c ∈ tokenize text, ∃ s, c = (text.drop s).take TIKTOKEN_MAX_ENCODE_CHARS := by
  have hgen : ∀ n (text : List Char), text.length = n →
      ∀ c ∈ tokenize text, ∃ s, c = (text.drop s).take TIKTOKEN_MAX_ENCODE_CHARS := by
    intro n
    induction n using Nat.strong_induction_on with
    | _ n ih =>
      intro text hlen c hc
      by_cases h : text = []
      · subst h
        rw [tokenize_nil] at hc
        cases hc
      · rw [tokenize_cons h] at hc
        have hL : 0 < text.length := List.length_pos.mpr h
        have hdrop : (text.drop TIKTOKEN_MAX_ENCODE_CHARS).length < n := by
          rw [List.length_drop, TIKTOKEN_MAX_ENCODE_CHARS]
          omega
        rcases List.mem_cons.mp hc with rfl | hc
        · exact ⟨0, by rw [List.drop_zero]⟩
        · obtain ⟨s, hs⟩ := ih _ hdrop _ rfl c hc
          refine ⟨TIKTOKEN_MAX_ENCODE_CHARS + s, ?_⟩
          rw [hs, List.drop_drop, Nat.add_comm]
  exact hgen _ text rfl

theorem no_special_in_replicate_a (n i : Nat) {tok : List Char}
    (hmem : tok ∈ ALL_SPECIAL_TOKENS) :
    startsWith tok ((List.replicate n 'a').drop i) = false := by
  have hsw := all_special_tokens_start hmem
  obtain ⟨rest, rfl⟩ := startsWith_lt_shape hsw
  rw [List.drop_replicate]
  match n - i with
  | 0 => rfl
  | m + 1 =>
    rw [show List.replicate (m + 1) 'a' = 'a' :: List.replicate m 'a' from rfl]
    simp [startsWith]

/-! ### Helper lemmas shared by the claim theorems -/

theorem tkEncode_single_special {t : FishTokenizer} {i : Nat} {tok : List Char}
    (hget : ALL_SPECIAL_TOKENS[i]? = some tok) (hne : tok ≠ []) :
    tkEncode t [tok] [] tok = .ok [special_token_begin t + i] := by
  rw [tkEncode, findOccurrence_nil, splitSpecials_single_token hne]
  have hid := get_token_id_eq t hget
  rw [get_token_id] at hid
  simp [mapME, hid, Except.map]

theorem special_getD_mem {i : Nat} (hi : i < ALL_SPECIAL_TOKENS.length) :
    ALL_SPECIAL_TOKENS.getD i [] ∈ ALL_SPECIAL_TOKENS := by
  have h1 : ALL_SPECIAL_TOKENS[i]? = some ALL_SPECIAL_TOKENS[i] :=
    List.getElem?_eq_getElem hi
  have h2 : ALL_SPECIAL_TOKENS.getD i [] = ALL_SPECIAL_TOKENS[i] := by
    rw [List.getD_eq_getElem?_getD, h1]
    rfl
  rw [h2]
  exact List.getElem_mem hi

theorem special_getD_getElem {i : Nat} (hi : i < ALL_SPECIAL_TOKENS.length) :
    ALL_SPECIAL_TOKENS[i]? = some (ALL_SPECIAL_TOKENS.getD i []) := by
  have h1 : ALL_SPECIAL_TOKENS[i]? = some ALL_SPECIAL_TOKENS[i] :=
    List.getElem?_eq_getElem hi
  rw [h1, List.getD_eq_getElem?_getD, h1]
  rfl

/-! ### The claims -/

/-- C3 (corrected; counterexample): the semantic token literal is
`<|semantic:{i}|>`, not the bare `semantic:{i}` the spec names; looking
up `semantic:0` in the special-token table is a `KeyError`. -/
theorem semantic_token_ids_cex :
    get_token_id T256 ("semantic:0".toList) = none := by
  apply get_token_id_none
  intro hmem
  have hsw := all_special_tokens_start hmem
  revert hsw
  decide

/-- C3 (amended): the tokens `<|semantic:{i}|>` for `0 ≤ i < 1024` map to
the contiguous id range `semantic_begin_id + i`, with
`semantic_begin_id = special_token_begin + 12` and
`semantic_end_id = semantic_begin_id + 1023`, and every semantic id lies
between `semantic_begin_id` and `semantic_end_id`. -/
theorem semantic_token_ids_amended (t : FishTokenizer) :
    semantic_begin_id t = special_token_begin t + 12 ∧
    semantic_end_id t = semantic_begin_id t + 1023 ∧
    (∀ i, i < 1024 →
      get_token_id t (semanticToken i) = some (semantic_begin_id t + i)) ∧
    (∀ i, i < 1024 →
      semantic_begin_id t ≤ semantic_begin_id t + i ∧
      semantic_begin_id t + i ≤ semantic_end_id t) := by
  have hb := semantic_begin_id_eq t
  have he := semantic_end_id_eq t
  refine ⟨hb, by omega, ?_, ?_⟩
  · intro i hi
    rw [get_token_id_semantic t hi, hb, ← Nat.add_assoc]
  · intro i hi
    constructor
    · omega
    · omega

theorem semantic_token_ids_amended_witness :
    (5 : Nat) < 1024 ∧
    get_token_id T256 (semanticToken 5) = some (semantic_begin_id T256 + 5) :=
  ⟨by norm_num, (semantic_token_ids_amended T256).2.2.1 5 (by norm_num)⟩

/-- C4 (confirmed): the i-th entry of `ALL_SPECIAL_TOKENS` receives id
`special_token_begin + i` (ids consecutive in list order, starting right
after the merge table), distinct tokens receive distinct ids, and the BOS
token receives the first special id. -/
theorem special_ids_enumerated (t : FishTokenizer) :
    (∀ i, i < ALL_SPECIAL_TOKENS.length →
      get_token_id t (ALL_SPECIAL_TOKENS.getD i []) =
        some (special_token_begin t + i)) ∧
    (∀ i j, i < ALL_SPECIAL_TOKENS.length → j < ALL_SPECIAL_TOKENS.length →
      i ≠ j →
      get_token_id t (ALL_SPECIAL_TOKENS.getD i []) ≠
        get_token_id t (ALL_SPECIAL_TOKENS.getD j [])) ∧
    get_token_id t BOS_TOKEN = some (special_token_begin t + 0) := by
  refine ⟨fun i hi => get_token_id_at_index t hi, ?_, ?_⟩
  · intro i j hi hj hne
    rw [get_token_id_at_index t hi, get_token_id_at_index t hj]
    intro heq
    injection heq with heq
    omega
  · have h0 : (0 : Nat) < ALL_SPECIAL_TOKENS.length := by
      rw [all_special_tokens_length]
      norm_num
    have h := get_token_id_at_index t h0
    rw [show ALL_SPECIAL_TOKENS.getD 0 [] = BOS_TOKEN from rfl] at h
    exact h

theorem special_ids_enumerated_witness :
    0 < ALL_SPECIAL_TOKENS.length ∧
    get_token_id T256 (ALL_SPECIAL_TOKENS.getD 0 []) =
      some (special_token_begin T256 + 0) := by
  have h0 : (0 : Nat) < ALL_SPECIAL_TOKENS.length := by
    rw [all_special_tokens_length]
    norm_num
  exact ⟨h0, (special_ids_enumerated T256).1 0 h0⟩

/-- C6 (confirmed): `tokenize` partitions the text: the chunks
concatenate back to the text, every chunk has at most
`TIKTOKEN_MAX_ENCODE_CHARS` characters, and every chunk but the last has
exactly that many. -/
theorem tokenize_partition (text : List Char) :
    (tokenize text).flatten = text ∧
    (∀ c ∈ tokenize text, c.length ≤ TIKTOKEN_MAX_ENCODE_CHARS) ∧
    (∀ i, i + 1 < (tokenize text).length →
      ((tokenize text).getD i []).length = TIKTOKEN_MAX_ENCODE_CHARS) :=
  ⟨tokenize_flatten text, tokenize_chunk_le text, tokenize_chunk_full text⟩

theorem tokenize_partition_witness :
    0 + 1 < (tokenize (List.replicate 400001 'a')).length ∧
    ((tokenize (List.replicate 400001 'a')).getD 0 []).length =
      TIKTOKEN_MAX_ENCODE_CHARS := by
  have hlen : (tokenize (List.replicate 400001 'a')).length = 2 := by
    rw [tokenize_length, List.length_replicate, TIKTOKEN_MAX_ENCODE_CHARS]
  have hlt : 0 + 1 < (tokenize (List.replicate 400001 'a')).length := by
    rw [hlen]
    norm_num
  exact ⟨hlt, (tokenize_partition (List.replicate 400001 'a')).2.2 0 hlt⟩

/-- C9 (confirmed): `allowed_special=True` behaves exactly like passing
the explicit set of all special tokens, and `allowed_special=False`
exactly like passing the empty set, both through
`convert_tokens_to_ids` and through `encode`. -/
theorem allowed_special_shorthand (t : FishTokenizer) :
    (∀ tokens, convert_tokens_to_ids t tokens .boolTrue =
      convert_tokens_to_ids t tokens (.explicit ALL_SPECIAL_TOKENS)) ∧
    (∀ tokens, convert_tokens_to_ids t tokens .boolFalse =
      convert_tokens_to_ids t tokens (.explicit [])) ∧
    (∀ x, encode t x .boolTrue = encode t x (.explicit ALL_SPECIAL_TOKENS)) ∧
    (∀ x, encode t x .boolFalse = encode t x (.explicit [])) := by
  have htrue : ∀ tokens, convert_tokens_to_ids t tokens .boolTrue =
      convert_tokens_to_ids t tokens (.explicit ALL_SPECIAL_TOKENS) :=
    fun _ => rfl
  have hfalse : ∀ tokens, convert_tokens_to_ids t tokens .boolFalse =
      convert_tokens_to_ids t tokens (.explicit []) := fun _ => rfl
  refine ⟨htrue, hfalse, fun x => ?_, fun x => ?_⟩
  · cases x with
    | ofStr s => exact htrue (tokenize s)
    | ofList l => exact htrue l
    | other => rfl
  · cases x with
    | ofStr s => exact hfalse (tokenize s)
    | ofList l => exact hfalse l
    | other => rfl

/-- C10 (confirmed): the fallback branch of `encode` is unreachable with
a sensible result: its guard `isinstance(text, str) and isinstance(text,
list)` can never hold, so a non-`str`, non-`list` argument always raises
`AssertionError`; `str` arguments go through `tokenize` then
`convert_tokens_to_ids`, `list` arguments directly through
`convert_tokens_to_ids`. -/
theorem encode_fallback_branch (t : FishTokenizer) (a : AllowedSpecial) :
    (∀ x : EncodeArg, ¬(x.isStr = true ∧ x.isList = true)) ∧
    encode t .other a = .error .assertionError ∧
    (∀ s, encode t (.ofStr s) a = convert_tokens_to_ids t (tokenize s) a) ∧
    (∀ l, encode t (.ofList l) a = convert_tokens_to_ids t l a) := by
  refine ⟨?_, rfl, fun s => rfl, fun l => rfl⟩
  intro x hx
  cases x with
  | ofStr s => cases hx.2
  | ofList l => cases hx.1
  | other => cases hx.1

theorem all_special_tokens_plain {tok : List Char} (h : tok ∈ ALL_SPECIAL_TOKENS) :
    ∀ c ∈ tok, 32 ≤ c.toNat ∧ ¬c = '"' ∧ ¬c = '\\' := by
  rw [all_special_eq_head_append] at h
  rcases List.mem_append.mp h with h | h
  · have hall : ∀ t ∈ headSpecialTokens, ∀ c ∈ t,
        32 ≤ c.toNat ∧ ¬c = '"' ∧ ¬c = '\\' := by decide
    exact hall _ h
  · obtain ⟨i, _, rfl⟩ := mem_semantic_iff.mp h
    intro c hc
    rw [semanticToken] at hc
    rcases List.mem_append.mp hc with hc | hc
    · rcases List.mem_append.mp hc with hc | hc
      · have hpre : ∀ c ∈ "<|semantic:".toList,
            32 ≤ c.toNat ∧ ¬c = '"' ∧ ¬c = '\\' := by decide
        exact hpre c hc
      · have hd := natDecimal_digits c hc
        refine ⟨by omega, fun heq => ?_, fun heq => ?_⟩
        · subst heq
          revert hd
          decide
        · subst heq
          revert hd
          decide
    · have hsuf : ∀ c ∈ "|>".toList,
          32 ≤ c.toNat ∧ ¬c = '"' ∧ ¬c = '\\' := by decide
      exact hsuf c hc

/-- C8 (corrected; counterexample): a model file whose rank has a leading
zero (`AAAA 007`) loads fine but is saved back canonicalized (`AAAA 7`),
so loading then saving is not byte-for-byte on every loadable file. -/
theorem save_pretrained_roundtrip_cex :
    (load_tiktoken_bpe ("AAAA 007\n".toList)).map saveTiktokenText =
      some ("AAAA 7\n".toList) ∧
    "AAAA 7\n".toList ≠ "AAAA 007\n".toList := by
  constructor
  · decide
  · decide

/-- C8 (amended): on canonical model files — exactly the outputs of the
save format, one `base64(token) rank` line per entry, distinct non-empty
byte keys — loading then saving is byte-for-byte the identity;
`save_pretrained` writes that canonical text for its merge table, and its
`special_tokens.json` parses back (2-space-indented object) to the
special-token table with the keys in registration order. -/
theorem save_pretrained_roundtrip (t : FishTokenizer)
    (entries : List (List Nat × Nat))
    (hentries : t.mergeableRanks = entries)
    (hne : ∀ p ∈ entries, p.1 ≠ [])
    (hbytes : ∀ p ∈ entries, ∀ b ∈ p.1, b < 256) :
    (load_tiktoken_bpe (saveTiktokenText entries)).map saveTiktokenText =
      some (saveTiktokenText entries) ∧
    (save_pretrained t).1 = saveTiktokenText entries ∧
    jsonParseObj (save_pretrained t).2 = some (all_special_tokens_with_ids t) ∧
    (all_special_tokens_with_ids t).map Prod.fst = ALL_SPECIAL_TOKENS := by
  have hkeys : (entries.map Prod.fst).Nodup := by
    rw [← hentries]
    exact t.nodupKeys
  refine ⟨?_, ?_, ?_, all_special_tokens_with_ids_keys t⟩
  · rw [load_canonical hkeys hne hbytes, Option.map_some']
  · rw [save_pretrained, hentries]
  · rw [show (save_pretrained t).2 = jsonDumpObj (all_special_tokens_with_ids t)
      from rfl]
    apply jsonParseObj_dump
    intro p hp
    apply all_special_tokens_plain
    rw [← all_special_tokens_with_ids_keys t]
    exact List.mem_map.mpr ⟨p, hp, rfl⟩

theorem save_pretrained_roundtrip_witness :
    T1.mergeableRanks = [([0, 0, 0], 0)] ∧
    (load_tiktoken_bpe (saveTiktokenText [([0, 0, 0], 0)])).map saveTiktokenText =
      some (saveTiktokenText [([0, 0, 0], 0)]) ∧
    (save_pretrained T1).1 = saveTiktokenText [([0, 0, 0], 0)] := by
  have h := save_pretrained_roundtrip T1 [([0, 0, 0], 0)] rfl
    (by decide) (by decide)
  exact ⟨rfl, h.1, h.2.1⟩

end Fish
